import Mathlib

/-!
Verification of the goql GraphQL marshaler (getoutreach/goql).

This file embeds the core of `query.go`, `util.go` and the `Fields`
helpers as Lean definitions and proves properties of the tag parser,
the field tree renderer, the argument collector, the fieldset union
and the marshaling cache.

Modelling conventions:
* Go strings are modelled as Lean `String`/`List Char`, iterated
  rune-by-rune (the Go code iterates with `range`, which decodes runes;
  the one byte-level access, `in[0]` in `toLowerCamelCase`, coincides
  with the first rune for ASCII input).
* Go maps are modelled as association lists in insertion order; a Go
  map holds at most one binding per key, which the `setF`/`lookupFM`
  operations preserve.  Go map iteration order is unspecified and
  randomized: where a proved statement could depend on it — the final
  range loop of argsFromTokens — the visiting order is an explicit
  parameter of the model (`argsFromTokensIter`, `marshalIter`);
  elsewhere the embedding fixes first-seen order and the proved
  statements do not depend on it.
* `interface\x7b\x7d` values stored in a `Fields` map are modelled by the
  inductive `FVal` (a boolean, a nested `Fields`, or some other scalar,
  represented by `FVal.str`).  A `nil` Go interface is `Option.none`.
  The API-level `Fields` parameter (which Go distinguishes from an
  empty map by `fields == nil`) is `Option FMap`.
* `io.Writer` output is modelled by returning the written `String`;
  fallible functions return `Except String`.
-/

namespace Goql

/-- token represents arguments and variables used throughout a GraphQL query
(struct `token` in query.go). -/
structure token where
  Kind : String
  Name : String
  Arg  : String
deriving Repr, DecidableEq

/-- The zero value of the Go `token` struct, used by `field.tokens` to skip
directives that carry no token. -/
def tokenZero : token := ⟨"", "", ""⟩

/-- tokenize (the package-level function in query.go): render a token list as
`Name: $Arg` pairs joined by `, `. -/
def tokenizeTokens (tokens : List token) : String :=
  String.intercalate ", " (tokens.map (fun t => t.Name ++ ": $" ++ t.Arg))

/-- declaration represents a field or model in a GraphQL operation
(struct `declaration` in query.go). -/
structure declaration where
  Name     : String
  Alias    : String
  Tokens   : List token
  Template : String
deriving Repr, DecidableEq

/-- declaration.tokenize: write the alias prefix when present, then either
`Name(<tokens>)` when a template is present or the bare name. -/
def declaration.tokenize (d : declaration) : String :=
  (if d.Alias ≠ "" then d.Alias ++ ": " else "") ++
    (if d.Template ≠ "" then d.Name ++ "(" ++ tokenizeTokens d.Tokens ++ ")" else d.Name)

/-- directive represents a skip/include/alias directive (struct `directive`
in query.go).  The Go field `Type` is spelled `Typ` here because `Type` is a
Lean keyword; its values are the Go `directiveEnum` strings `"alias"`,
`"skip"`, `"include"`. -/
structure directive where
  Typ      : String
  Token    : token
  Template : String
deriving Repr, DecidableEq

/-- directive.tokenize: render a directive suffix `@type(if: $arg)`. -/
def directive.tokenize (d : directive) : String :=
  "@" ++ d.Typ ++ "(if: $" ++ d.Token.Arg ++ ")"

/-- The text written for a list of directives: each is preceded by a space
(the loops in `field.tokenize`/`field.tokenizeWithFields`). -/
def directivesText (dirs : List directive) : String :=
  String.join (dirs.map (fun d => " " ++ d.tokenize))

/-- FVal models one `interface\x7b\x7d` value stored in a `Fields` map:
a boolean, a nested `Fields` map, or any other (non-bool, non-Fields)
value, represented by `FVal.str`.  A nested nil Go `Fields` behaves like
an empty one inside the renderer and the union (lookups miss), so nested
maps are plain lists here. -/
inductive FVal : Type where
  | b   : Bool → FVal
  | sub : List (String × FVal) → FVal
  | str : String → FVal
deriving Repr

/-- A (non-nil) `Fields` map: an association list with at most one binding
per key, in insertion order. -/
abbrev FMap := List (String × FVal)

/-- Go map lookup `m[k]` (missing keys give the nil interface, `none`). -/
def lookupFM : FMap → String → Option FVal
  | [], _ => none
  | (k0, v0) :: rest, k => if k0 = k then some v0 else lookupFM rest k

/-- Go map assignment `m[k] = v`: overwrite an existing binding or append a
new one. -/
def setF : FMap → String → FVal → FMap
  | [], k, v => [(k, v)]
  | (k0, v0) :: rest, k, v =>
    if k0 = k then (k0, v) :: rest else (k0, v0) :: setF rest k v

/-- The API-level `Fields` type: Go distinguishes a nil map (`fields == nil`
in `field.tokenize`) from a non-nil one, so the top-level value is optional. -/
abbrev Fields := Option FMap

/-- field represents a field or model in a GraphQL query (struct `field` in
query.go): declaration, directives, children and the keep flag. -/
inductive field : Type where
  | mk (Decl : declaration) (Directives : List directive) (Fields : List field) (Keep : Bool)
deriving Repr

/-- Projection for the declaration of a field. -/
def field.Decl : field → declaration
  | .mk d _ _ _ => d

/-- Projection for the directives of a field. -/
def field.Directives : field → List directive
  | .mk _ dirs _ _ => dirs

/-- Projection for the children of a field. -/
def field.Fields : field → List field
  | .mk _ _ fs _ => fs

/-- Projection for the keep flag of a field. -/
def field.Keep : field → Bool
  | .mk _ _ _ keep => keep

mutual
/-- field.tokens: gather the declaration tokens, the non-zero directive
tokens, and recursively all children tokens. -/
def field.tokens : field → List token
  | .mk d dirs fs _ =>
    d.Tokens ++ ((dirs.filter (fun dir => dir.Token ≠ tokenZero)).map directive.Token)
      ++ fieldListTokens fs

/-- Token gathering over a list of child fields (the recursion of
`field.tokens` over `f.Fields`). -/
def fieldListTokens : List field → List token
  | [] => []
  | f :: fs => f.tokens ++ fieldListTokens fs
end

/-- The error message of `field.tokenizeWithFields` for a boolean fieldset
entry on a node that has children. -/
def errBoolChildren (name : String) : String :=
  "field " ++ name ++
    " set to true in sparse fieldset map has children fields, needs submap for children fields"

/-- The error message of `field.tokenizeWithFields` for a sub-map fieldset
entry on a node that has no children. -/
def errSubNoChildren (name : String) : String :=
  "field " ++ name ++
    " set to a submap of fields in sparse fieldset map has no children fields, needs to be set to true or false"

mutual
/-- field.tokenizeWithFields: render one field under the `interface\x7b\x7d`
fieldset value looked up for it by its parent.  The type switch on that
value runs first (it can fail even for kept fields), then the keep flag
forces writing; a written field emits its declaration, directive suffixes
and, when children exist, a brace block in which each child is rendered
under the value looked up in this field's sub-map (or nil when this
field's value was not a map).  Returns (written, text). -/
def field.tokenizeWithFields : field → Option FVal → Except String (Bool × String)
  | .mk d dirs fs keep, v =>
    match (match v with
           | some (.b ts) =>
             if fs.length > 0 then Except.error (errBoolChildren d.Name) else Except.ok ts
           | some (.sub _) =>
             if fs.length == 0 then Except.error (errSubNoChildren d.Name) else Except.ok true
           | _ => Except.ok false : Except String Bool) with
    | .error e => .error e
    | .ok w0 =>
      let write := w0 || keep
      if write then
        let head := d.tokenize ++ directivesText dirs
        if fs.length > 0 then
          match tokenizeChildrenWF fs v with
          | .error e => .error e
          | .ok body => .ok (true, head ++ " \x7b\n" ++ body ++ "\x7d")
        else .ok (true, head)
      else .ok (false, "")

/-- The children loop of `field.tokenizeWithFields`: each child is rendered
under `ts[child.Decl.Name]` when the parent's value is a `Fields` map, and
under nil otherwise; a written child is followed by a newline. -/
def tokenizeChildrenWF : List field → Option FVal → Except String String
  | [], _ => .ok ""
  | f :: rest, v =>
    match f.tokenizeWithFields
        (match v with | some (.sub m) => lookupFM m f.Decl.Name | _ => none) with
    | .error e => .error e
    | .ok r =>
      match tokenizeChildrenWF rest v with
      | .error e => .error e
      | .ok s => .ok ((if r.1 then r.2 ++ "\n" else r.2) ++ s)
end

mutual
/-- field.tokenize: the root-level renderer.  It writes the directive
suffixes and, when children exist, a brace block; each child is rendered as
a leaf when the fieldset is nil and through `tokenizeWithFields` (receiving
the whole map as its value) otherwise.  Always returns written = true. -/
def field.tokenize : field → Goql.Fields → Except String (Bool × String)
  | .mk _ dirs fs _, fields =>
    let head := directivesText dirs
    if fs.length > 0 then
      match tokenizeChildrenRoot fs fields with
      | .error e => .error e
      | .ok body => .ok (true, head ++ " \x7b\n" ++ body ++ "\x7d")
    else .ok (true, head)

/-- The children loop of `field.tokenize`: with a nil fieldset each child is
rendered as a leaf (its declaration, then its own `field.tokenize` with nil),
otherwise through `tokenizeWithFields` with the whole map as value. -/
def tokenizeChildrenRoot : List field → Fields → Except String String
  | [], _ => .ok ""
  | f :: rest, fields =>
    match (match fields with
           | none =>
             (match f.tokenize none with
              | .error e => .error e
              | .ok r => .ok (r.1, f.Decl.tokenize ++ r.2))
           | some m => f.tokenizeWithFields (some (.sub m)) : Except String (Bool × String)) with
    | .error e => .error e
    | .ok r =>
      match tokenizeChildrenRoot rest fields with
      | .error e => .error e
      | .ok s => .ok ((if r.1 then r.2 ++ "\n" else r.2) ++ s)
end

/-- field.tokenizeAsLeaf: write the declaration of the receiver field, then
continue with the regular tokenization (`field.tokenize`). -/
def field.tokenizeAsLeaf (f : field) (fields : Goql.Fields) : Except String (Bool × String) :=
  match f.tokenize fields with
  | .error e => .error e
  | .ok r => .ok (r.1, f.Decl.tokenize ++ r.2)

/-- field.tokenizeAsRoot: write the given declaration name (the operation
keyword, possibly with arguments) instead of the field's own declaration,
then continue with the regular tokenization. -/
def field.tokenizeAsRoot (f : field) (declName : String) (fields : Goql.Fields) :
    Except String (Bool × String) :=
  match f.tokenize fields with
  | .error e => .error e
  | .ok r => .ok (r.1, declName ++ r.2)

/-- The `inArgs` toggle of splitTag: flipped at every `(` or `)` character
(`strings.ContainsRune("()", r)`), left alone otherwise. -/
def splitToggle (r : Char) (inArgs : Bool) : Bool :=
  if r = '(' || r = ')' then !inArgs else inArgs

/-- splitTagGo: the loop body of splitTag.  `inArgs` is the boolean that Go
toggles at every `(` or `)` character; a comma splits only while it is
false, every other character is appended to the current builder `sb`. -/
def splitTagGo : List Char → Bool → List Char → List String
  | [], _, sb => [String.mk sb]
  | r :: rest, inArgs, sb =>
    if r = ',' && !(splitToggle r inArgs) then
      String.mk sb :: splitTagGo rest (splitToggle r inArgs) []
    else splitTagGo rest (splitToggle r inArgs) (sb ++ [r])

/-- splitTag takes a tag and splits it into directives and declarations,
ignoring commas while the `inArgs` toggle is set. -/
def splitTag (tag : String) : List String :=
  splitTagGo tag.data false []

/-- specialStrings (util.go): whole-string exceptions for toLowerCamelCase. -/
def specialStrings : List (String × String) := [("ID", "id")]

/-- Association-list lookup used for the Go maps of strings. -/
def lookupA {α : Type} : List (String × α) → String → Option α
  | [], _ => none
  | (k0, v0) :: rest, k => if k0 = k then some v0 else lookupA rest k

/-- The separator test of toLowerCamelCase: whitespace, `-`, `_` or `.`
(Go `unicode.IsSpace(r) || strings.ContainsRune("-_.", r)`). -/
def isSepChar (r : Char) : Bool :=
  r.isWhitespace || r = '-' || r = '_' || r = '.'

/-- The loop of toLowerCamelCase over the characters after the first:
separators are skipped and set the capitalize-next flag, which uppercases
the next character seen (whatever it is) and is then cleared. -/
def camelGo : List Char → Bool → List Char
  | [], _ => []
  | r :: rest, capNext =>
    if !r.isAlpha && isSepChar r then camelGo rest true
    else if capNext then r.toUpper :: camelGo rest false
    else r :: camelGo rest capNext

/-- toLowerCamelCase (util.go): empty input unchanged; whole-string
exception table; otherwise first character lowercased and the camelGo loop
over the remainder.  (Characters model Go runes; Go reads the first byte,
which agrees for ASCII input.) -/
def toLowerCamelCase (s : String) : String :=
  if s = "" then s
  else
    match lookupA specialStrings s with
    | some out => out
    | none =>
      match s.data with
      | [] => s
      | c :: rest => String.mk (c.toLower :: camelGo rest false)

/-- Word characters of the Go regexp `\w`: ASCII letters, digits, `_`. -/
def isWordChar (c : Char) : Bool := c.isAlphanum || c = '_'

/-- reName (`^\w+$`): a non-empty string of word characters. -/
def reNameMatch (s : String) : Bool :=
  !s.data.isEmpty && s.data.all isWordChar

/-- States of the deterministic matcher for reDecl,
`^(?P<name>\w+)(?P<args>\((?:\w+:\$\w+<\[?\w+!?]?>,?)*\))$`.
The pattern is matched one character at a time; the grammar is regular and
every decision is determined by the next character. -/
inductive DeclSt : Type where
  | name0 | name | params | pname | dollar | arg0 | arg
  | kind0 | kind1 | kind | bang | close | post | accept | reject
deriving Repr, DecidableEq

/-- One step of the reDecl matcher. -/
def declStep (st : DeclSt) (c : Char) : DeclSt :=
  match st with
  | .name0 => if isWordChar c then .name else .reject
  | .name => if isWordChar c then .name else if c = '(' then .params else .reject
  | .params =>
    if c = ')' then .accept else if isWordChar c then .pname else .reject
  | .pname =>
    if isWordChar c then .pname else if c = ':' then .dollar else .reject
  | .dollar => if c = '$' then .arg0 else .reject
  | .arg0 => if isWordChar c then .arg else .reject
  | .arg => if isWordChar c then .arg else if c = '<' then .kind0 else .reject
  | .kind0 => if c = '[' then .kind1 else if isWordChar c then .kind else .reject
  | .kind1 => if isWordChar c then .kind else .reject
  | .kind =>
    if isWordChar c then .kind
    else if c = '!' then .bang
    else if c = ']' then .close
    else if c = '>' then .post else .reject
  | .bang => if c = ']' then .close else if c = '>' then .post else .reject
  | .close => if c = '>' then .post else .reject
  | .post =>
    if c = ',' then .params
    else if isWordChar c then .pname
    else if c = ')' then .accept else .reject
  | .accept => .reject
  | .reject => .reject

/-- reDecl match: run the matcher over the whole string and accept exactly
when the final `)` was the last character. -/
def reDeclMatch (s : String) : Bool :=
  match s.data.foldl declStep .name0 with
  | .accept => true
  | _ => false

/-- Scanner state for extracting the reParam submatches
(`(?P<name>\w+):\$(?P<arg>\w+)<(?P<kind>\[?\w+!?]?)>`) from the
parenthesis-stripped argument list of a declaration, together with the
template rewrite of parseDecl (each match whose kind starts with `[` is
replaced by its prefix up to that bracket, i.e. `name:$arg<`; characters
outside matches are kept verbatim).  Only used on strings accepted by
reDeclMatch, where the scan is exact. -/
structure ScanSt where
  mode    : Nat
  curName : List Char
  curArg  : List Char
  curKind : List Char
  toks    : List token
  tmpl    : List Char

/-- One step of the parameter scanner.  Modes: 0 between parameters,
1 in the name, 2 just after `:` (expect `$`), 3 in the variable, 4 in the
`<`-`>`-delimited kind. -/
def scanStep (st : ScanSt) (c : Char) : ScanSt :=
  match st.mode with
  | 0 =>
    if isWordChar c then { st with mode := 1, curName := [c] }
    else { st with tmpl := st.tmpl ++ [c] }
  | 1 =>
    if isWordChar c then { st with curName := st.curName ++ [c] }
    else { st with mode := 2 }
  | 2 => { st with mode := 3, curArg := [] }
  | 3 =>
    if isWordChar c then { st with curArg := st.curArg ++ [c] }
    else { st with mode := 4, curKind := [] }
  | _ =>
    if c = '>' then
      { mode := 0, curName := [], curArg := [], curKind := [],
        toks := st.toks ++ [⟨String.mk st.curKind, String.mk st.curName, String.mk st.curArg⟩],
        tmpl := st.tmpl ++ st.curName ++ [':', '$'] ++ st.curArg ++ ['<'] ++
          (if st.curKind.head? = some '[' then [] else st.curKind ++ ['>']) }
    else { st with curKind := st.curKind ++ [c] }

/-- Run the parameter scanner over a parameter list. -/
def scanParams (cs : List Char) : List token × List Char :=
  let st := cs.foldl scanStep ⟨0, [], [], [], [], []⟩
  (st.toks, st.tmpl)

/-- strings.Trim(s, "()"): drop leading and trailing parenthesis characters. -/
def trimParens (cs : List Char) : List Char :=
  ((cs.dropWhile (fun c => c = '(' || c = ')')).reverse.dropWhile
    (fun c => c = '(' || c = ')')).reverse

/-- parseDecl: split the reDecl match into the name and argument captures,
strip the parentheses, and extract tokens and template (query.go). -/
def parseDecl (s : String) : declaration :=
  let name := s.data.takeWhile isWordChar
  let args := s.data.dropWhile isWordChar
  let params := trimParens args
  let (toks, tmpl) := scanParams params
  ⟨String.mk name, "", toks, String.mk tmpl⟩

/-- The captures of reDirective (`^@(?P<name>\w+)(?P<arg>\(\$?\w+\))$`):
the directive name and the parenthesized argument, or `none` when the
string does not match. -/
def reDirectiveParse (s : List Char) : Option (String × List Char) :=
  match s with
  | '@' :: rest =>
    let nm := rest.takeWhile isWordChar
    let rest2 := rest.dropWhile isWordChar
    if nm.isEmpty then none
    else
      match rest2 with
      | '(' :: rest3 =>
        let (dollar, rest4) :=
          match rest3 with
          | '$' :: r => (true, r)
          | _ => (false, rest3)
        let argw := rest4.takeWhile isWordChar
        let rest5 := rest4.dropWhile isWordChar
        if argw.isEmpty then none
        else
          match rest5 with
          | [')'] =>
            some (String.mk nm,
              '(' :: ((if dollar then ['$'] else []) ++ argw) ++ [')'])
          | _ => none
      | _ => none
  | _ => none

/-- parseDirective (query.go): build a directive from a reDirective match;
skip/include arguments beginning with `$` carry a `Boolean!` token; unknown
directive names are an error.  The `none` case cannot be reached from
parseTag, which only calls this after the match succeeded. -/
def parseDirective (s : String) : Except String directive :=
  match reDirectiveParse s.data with
  | none => .error ("failed to parse tag \"" ++ s ++ "\"")
  | some (nm, argRaw) =>
    let template := String.mk (trimParens argRaw)
    let dir : directive := ⟨nm, tokenZero, template⟩
    if nm = "alias" then .ok dir
    else if nm = "include" || nm = "skip" then
      if template.data.head? = some '$' then
        .ok { dir with Token := ⟨"Boolean!", "", String.mk (template.data.drop 1)⟩ }
      else .ok dir
    else .error ("unknown directive in tag \"" ++ nm ++ "\"")

/-- The Go byte-wise string comparison `<` (character-wise here, which
coincides for the ASCII strings compared by parseTag). -/
def charListLt : List Char → List Char → Bool
  | [], [] => false
  | [], _ :: _ => true
  | _ :: _, [] => false
  | a :: as, b :: bs =>
    if a.toNat < b.toNat then true else if b.toNat < a.toNat then false else charListLt as bs

/-- String `<` on the underlying characters. -/
def strLtB (a b : String) : Bool := charListLt a.data b.data

/-- Insert a directive into a list sorted by Typ (the comparison used by
`sort.Slice(f.Directives, ...)` in parseTag). -/
def insertDirective (x : directive) : List directive → List directive
  | [] => [x]
  | y :: rest => if strLtB x.Typ y.Typ then x :: y :: rest else y :: insertDirective x rest

/-- Sort the directives by Typ, as parseTag does before scanning for
duplicates. -/
def sortDirectives : List directive → List directive
  | [] => []
  | x :: rest => insertDirective x (sortDirectives rest)

/-- The adjacent-duplicate scan of parseTag over the sorted directives:
the type of the first duplicated directive, if any. -/
def findDupDirective : List directive → Option String
  | x :: y :: rest => if x.Typ = y.Typ then some y.Typ else findDupDirective (y :: rest)
  | _ => none

/-- strings.TrimSpace: drop leading and trailing whitespace characters. -/
def goTrimSpace (s : String) : String :=
  String.mk (((s.data.dropWhile Char.isWhitespace).reverse.dropWhile
    Char.isWhitespace).reverse)

/-- The empty Go `declaration` value. -/
def emptyDeclaration : declaration := ⟨"", "", [], ""⟩

/-- parseTagLoop: the clause loop of parseTag.  State: the declaration,
directive list, keep flag and the alias string captured outside the
directive list.  The cases are tried in the order of the Go switch. -/
def parseTagLoop (tag : String) :
    List String → declaration → List directive → Bool → String →
      Except String (declaration × List directive × Bool × String)
  | [], d, dirs, keep, al => .ok (d, dirs, keep, al)
  | item0 :: rest, d, dirs, keep, al =>
    let item := goTrimSpace item0
    if item = "" then parseTagLoop tag rest d dirs keep al
    else if reNameMatch item && item != "keep" then
      parseTagLoop tag rest ⟨item, "", [], ""⟩ dirs keep al
    else if reDeclMatch item then
      parseTagLoop tag rest (parseDecl item) dirs true al
    else if (reDirectiveParse item.data).isSome then
      match parseDirective item with
      | .error e => .error e
      | .ok dir =>
        if dir.Typ = "alias" then parseTagLoop tag rest d dirs keep dir.Template
        else parseTagLoop tag rest d (dirs ++ [dir]) keep al
    else if item = "keep" then parseTagLoop tag rest d dirs true al
    else .error ("failed to parse tag \"" ++ tag ++ "\"")

/-- parseTag (query.go): split the tag, run the clause loop, store the
captured alias into the declaration, sort the directives and fail on a
duplicated directive type. -/
def parseTag (tag : String) : Except String field :=
  match parseTagLoop tag (splitTag tag) emptyDeclaration [] false "" with
  | .error e => .error e
  | .ok (d, dirs, keep, al) =>
    let d2 : declaration := { d with Alias := al }
    let dirs2 := sortDirectives dirs
    match findDupDirective dirs2 with
    | some t => .error ("duplicate directive in tag \"" ++ t ++ "\"")
    | none => .ok (.mk d2 dirs2 [] keep)

/-- The loop of argsFromTokens: an args map from variable name to kind,
failing on a second binding with a different kind (query.go). -/
def argsLoop : List token → List (String × String) → Except String (List (String × String))
  | [], m => .ok m
  | t :: ts, m =>
    match lookupA m t.Arg with
    | some kind =>
      if t.Kind ≠ kind then
        .error ("argument $" ++ t.Arg ++ " cannot have more than one type")
      else argsLoop ts m
    | none => argsLoop ts (m ++ [(t.Arg, t.Kind)])

/-- argsFromTokens (query.go): deduplicate the tokens by variable name,
failing on conflicting kinds, and render each binding as `$arg: Kind`.
Go iterates the final map in unspecified, randomized order; this
definition fixes first-seen order — one admissible order — and is used
only for order-independent properties; `argsFromTokensIter` exposes the
iteration order as a parameter. -/
def argsFromTokens (tokens : List token) : Except String (List String) :=
  match argsLoop tokens [] with
  | .error e => .error e
  | .ok m => .ok (m.map (fun p => "$" ++ p.1 ++ ": " ++ p.2))

mutual
/-- Union (fields.go): fold the second map into the first.  Missing keys
are inserted; when both values are maps they are merged recursively; a map
on the left is kept over a non-map on the right; otherwise the right value
overwrites the left one. -/
def Union : FMap → FMap → FMap
  | x, [] => x
  | x, (k, v) :: rest => Union (unionKey x k v) rest

/-- One key-merge step of Union. -/
def unionKey : FMap → String → FVal → FMap
  | x, k, v =>
    match lookupFM x k with
    | none => setF x k v
    | some (.sub xm) =>
      match v with
      | .sub ym => setF x k (.sub (Union xm ym))
      | _ => x
    | some _ => setF x k v
end

/-- Does the pattern occur as a prefix? (`strings.HasPrefix`.) -/
def hasPrefixL : List Char → List Char → Bool
  | _, [] => true
  | [], _ :: _ => false
  | c :: cs, p :: ps => c = p && hasPrefixL cs ps

/-- Does the pattern occur anywhere? (positivity of `strings.Count`:
`strings.Count(raw, d) > 0` iff `containsSubstr raw.data d.data`). -/
def containsSubstr : List Char → List Char → Bool
  | [], d => d.isEmpty
  | c :: r, d => hasPrefixL (c :: r) d || containsSubstr r d

/-- Index of the first occurrence of the pattern (`strings.Index`), as a
count; meaningful when `containsSubstr` holds. -/
def indexOfSub : List Char → List Char → Nat
  | [], _ => 0
  | c :: r, d => if hasPrefixL (c :: r) d then 0 else 1 + indexOfSub r d

/-- addRawFieldToFields (fields.go): recursively add one delimited path to
a Fields map.  When the delimiter occurs, the head segment maps to a
sub-map (an existing sub-map is reused, anything else replaced by an empty
one) and the remainder (everything past `split+1`, as in the Go slice
`raw[split+1:]`) is added to it; otherwise the whole string maps to true.
The extra emptiness guard only rules out the input (`raw = ""` with an
empty delimiter) on which the Go slice expression panics. -/
def addRawFieldToFields (raw delim : String) (fields : FMap) : FMap :=
  if h : containsSubstr raw.data delim.data && !raw.data.isEmpty then
    let split := indexOfSub raw.data delim.data
    let current := String.mk (raw.data.take split)
    let leftover := String.mk (raw.data.drop (split + 1))
    let inner :=
      match lookupFM fields current with
      | some (.sub m) => m
      | _ => []
    setF fields current (.sub (addRawFieldToFields leftover delim inner))
  else setF fields raw (.b true)
termination_by raw.data.length
decreasing_by
  have h2 := ((Bool.and_eq_true _ _).mp h).2
  have h3 : 0 < raw.data.length := by
    cases hd : raw.data with
    | nil => rw [hd] at h2; simp at h2
    | cons a l => simp [hd]
  show (raw.data.drop (indexOfSub raw.data delim.data + 1)).length < raw.data.length
  simp only [List.length_drop]
  omega

/-- strings.Split with a non-empty separator: the splitting loop. -/
def splitSubAux (sep1 : Char) (sepRest : List Char) :
    List Char → List Char → List String
  | [], acc => [String.mk acc]
  | c :: rest, acc =>
    if hasPrefixL (c :: rest) (sep1 :: sepRest) then
      String.mk acc :: splitSubAux sep1 sepRest (rest.drop sepRest.length) []
    else splitSubAux sep1 sepRest rest (acc ++ [c])
termination_by cs _ => cs.length
decreasing_by
  · simp only [List.length_drop, List.length_cons]
    omega
  · simp only [List.length_cons]
    omega

/-- strings.Split: an empty separator splits into the individual
characters, otherwise split around each occurrence of the separator. -/
def goSplit (s sep : String) : List String :=
  match sep.data with
  | [] => s.data.map (fun c => String.mk [c])
  | c :: cs => splitSubAux c cs s.data []

/-- FieldsFromDelimitedList (fields.go): the empty list gives the nil
Fields; otherwise each field entry of the delimited list is added to a
fresh map. -/
def FieldsFromDelimitedList (list fieldDelimiter subFieldDelimiter : String) : Fields :=
  if list = "" then none
  else
    some ((goSplit list fieldDelimiter).foldl
      (fun m raw => addRawFieldToFields raw subFieldDelimiter m) [])

/-- A structural type description: the data that the reflective walk of
query.go (structNode/listFields/walker) extracts from a Go struct type —
for every visited field its name and its goql tag, with the struct-kind
children in declaration order (unexported and `-`-tagged fields already
skipped, pointers/slices dereferenced).  The root carries the empty tag,
as structNode sets none. -/
inductive TypeDesc : Type where
  | mk (name : String) (tag : String) (children : List TypeDesc)

mutual
/-- buildTree: the composition of walk with marshal's visit function —
parse each node's tag, default the declaration name to the
lower-camel-cased field name, and append each completed child to its
parent (the stack discipline of the visit function on a tree traversal). -/
def buildTree : TypeDesc → Except String field
  | .mk n tag cs =>
    match parseTag tag with
    | .error e => .error e
    | .ok f =>
      let d := if f.Decl.Name = "" then { f.Decl with Name := toLowerCamelCase n } else f.Decl
      match buildChildren cs with
      | .error e => .error e
      | .ok children => .ok (.mk d f.Directives (f.Fields ++ children) f.Keep)

/-- buildTree over the children of a node, in declaration order. -/
def buildChildren : List TypeDesc → Except String (List field)
  | [] => .ok []
  | t :: ts =>
    match buildTree t with
    | .error e => .error e
    | .ok f =>
      match buildChildren ts with
      | .error e => .error e
      | .ok fs => .ok (f :: fs)
end

/-- The Tree Cache (`var cache sync.Map` in query.go): a map from the
structural-type identity (modelled as a string key) to the built tree. -/
abbrev Cache := List (String × field)

/-- cache.Load. -/
def lookupCache : Cache → String → Option field
  | [], _ => none
  | (k0, v0) :: rest, k => if k0 = k then some v0 else lookupCache rest k

/-- cache.Store: replace an existing entry or append a new one. -/
def storeCache : Cache → String → field → Cache
  | [], k, v => [(k, v)]
  | (k0, v0) :: rest, k, v =>
    if k0 = k then (k0, v) :: rest else (k0, v0) :: storeCache rest k v

/-- The tail of marshal after the tree is available: collect the argument
list from the tree's tokens, build the root declaration name from the
wrapper (`query`/`mutation`) and the joined arguments, and render through
tokenizeAsRoot. -/
def renderOperation (operation : field) (wrapper : String) (fields : Fields) :
    Except String String :=
  match argsFromTokens operation.tokens with
  | .error e => .error e
  | .ok args =>
    let declName :=
      if args.length > 0 then wrapper ++ "(" ++ String.intercalate ", " args ++ ")"
      else wrapper
    match operation.tokenizeAsRoot declName fields with
    | .error e => .error e
    | .ok r => .ok r.2

/-- marshal (query.go), with the process-wide cache passed explicitly:
on a cache hit the stored tree is rendered and the cache is untouched; on
a miss the tree is built (a build error leaves the cache untouched) and
stored — before argsFromTokens runs — and then rendered.  The rendering
step never writes to the tree (the current code computes the root
declaration name locally instead of rewriting the cached root). -/
def marshal (c : Cache) (tkey : String) (t : TypeDesc) (wrapper : String)
    (fields : Fields) : Except String String × Cache :=
  match lookupCache c tkey with
  | some operation => (renderOperation operation wrapper fields, c)
  | none =>
    match buildTree t with
    | .error e => (.error e, c)
    | .ok operation =>
      (renderOperation operation wrapper fields, storeCache c tkey operation)

/-! Specification-side definitions and test fixtures used by the theorems. -/

/-- Parenthesis counting for the amended reading of the spec. -/
def parityBump (r : Char) (parens : Nat) : Nat :=
  if r = '(' || r = ')' then parens + 1 else parens

/-- A parenthesis-parity splitter, written against the amended reading of
the spec: a comma separates exactly when the number of parenthesis
characters (opening or closing) seen before it is even. -/
def splitTagParity : List Char → Nat → List Char → List String
  | [], _, sb => [String.mk sb]
  | r :: rest, parens, sb =>
    if r = ',' && decide (parityBump r parens % 2 = 0) then
      String.mk sb :: splitTagParity rest (parityBump r parens) []
    else splitTagParity rest (parityBump r parens) (sb ++ [r])
mutual
/-- The claim's transformation, normal mode: a separator starts a run,
everything else passes through. -/
def specCamelRun : List Char → List Char
  | [] => []
  | r :: rest => if isSepChar r then specCamelAfterSep rest else r :: specCamelRun rest

/-- The claim's transformation inside/after a run of separators: further
separators are dropped, the next letter is uppercased and ends the run,
and any other character passes through with the run still pending. -/
def specCamelAfterSep : List Char → List Char
  | [] => []
  | r :: rest =>
    if isSepChar r then specCamelAfterSep rest
    else if r.isAlpha then r.toUpper :: specCamelRun rest
    else r :: specCamelAfterSep rest
end

/-- The claim's statement of toLowerCamelCase, word for word: exception
table on the whole input, else first character lowercased and, after every
run of separators, the next letter uppercased (non-letters passing through
unchanged). -/
def specToLowerCamelCase (s : String) : String :=
  if s = "" then s
  else
    match lookupA specialStrings s with
    | some out => out
    | none =>
      match s.data with
      | [] => s
      | c :: rest => String.mk (c.toLower :: specCamelRun rest)

mutual
/-- The amended transformation, normal mode. -/
def specCamelRunAmd : List Char → List Char
  | [] => []
  | r :: rest => if isSepChar r then specCamelAfterSepAmd rest else r :: specCamelRunAmd rest

/-- The amended transformation after separators: the next character —
letter or not — is uppercased (uppercasing leaves non-letters unchanged)
and ends the run. -/
def specCamelAfterSepAmd : List Char → List Char
  | [] => []
  | r :: rest =>
    if isSepChar r then specCamelAfterSepAmd rest else r.toUpper :: specCamelRunAmd rest
end

/-- The amended version of the claim's whole-string transformation. -/
def specToLowerCamelCaseAmd (s : String) : String :=
  if s = "" then s
  else
    match lookupA specialStrings s with
    | some out => out
    | none =>
      match s.data with
      | [] => s
      | c :: rest => String.mk (c.toLower :: specCamelRunAmd rest)
deriving instance DecidableEq for Except

mutual
/-- The text that an unconditional (unfiltered) render of a field's body
produces: directive suffixes and, when children exist, a brace block
containing every child. -/
def renderAllBody : field → String
  | .mk _ dirs fs _ =>
    directivesText dirs ++
      (if fs.length > 0 then " \x7b\n" ++ renderAllChildren fs ++ "\x7d" else "")

/-- The text of an unconditional render of a child list: every child's
declaration and body, each followed by a newline. -/
def renderAllChildren : List field → String
  | [] => ""
  | f :: rest => f.Decl.tokenize ++ renderAllBody f ++ "\n" ++ renderAllChildren rest
end
/-- A type description whose two declarations annotate the same variable
`$v` with kinds `Int` and `String`. -/
def tCacheConflict : TypeDesc :=
  .mk "" "" [.mk "A" "a(x:$v<Int>)" [], .mk "B" "b(y:$v<String>)" []]
/-- The merge of a colliding value: an absent left value is overwritten;
two sub-maps merge recursively; a left sub-map beats a non-map right
value; otherwise the right value overwrites the left one. -/
def unionVal : Option FVal → FVal → FVal
  | none, v => v
  | some (.sub xm), .sub ym => .sub (Union xm ym)
  | some (.sub xm), _ => .sub xm
  | some _, v => v
mutual
/-- The text a field writes when it is rendered while all of its children
see a nil scope (only Keep-flagged descendants appear). -/
def keepRenderText : field → String
  | .mk d dirs fs _ =>
    d.tokenize ++ directivesText dirs ++
      (if fs.length > 0 then " \x7b\n" ++ keepRenderChildren fs ++ "\x7d" else "")

/-- The children text under a nil scope: exactly the Keep-flagged children
appear, each followed by a newline. -/
def keepRenderChildren : List field → String
  | [] => ""
  | f :: rest =>
    (if f.Keep then keepRenderText f ++ "\n" else "") ++ keepRenderChildren rest
end

/-- A scope value that is the nil interface or a non-bool non-map scalar. -/
def scopeTriv (v : Option FVal) : Prop :=
  v = none ∨ ∃ s, v = some (FVal.str s)

/-- A scope value that is not a Fields map. -/
def scopeNotSub (v : Option FVal) : Prop :=
  ∀ m, v ≠ some (FVal.sub m)
/-- The order in which parseTag's sort leaves the directives: `x` before
`y` when `y.Typ` is not smaller than `x.Typ`. -/
def dirLe (x y : directive) : Prop := charListLt y.Typ.data x.Typ.data = false
/-- The last value or the default (the overwrite fold of the `alias`
variable in parseTag's loop). -/
def lastOr (l : List String) (dflt : String) : String :=
  l.foldl (fun _ x => x) dflt

/-- The alias contributed by one clause of a tag: the trimmed-parenthesis
argument when the trimmed clause is an `@alias(...)` directive match. -/
def aliasOf (item0 : String) : Option String :=
  match reDirectiveParse (goTrimSpace item0).data with
  | some (nm, arg) => if nm = "alias" then some (String.mk (trimParens arg)) else none
  | none => none

/-- argsFromTokens with the order of the final `for arg, kind := range
argsMap` loop made explicit.  Go map iteration order is unspecified and
randomized per loop, so the sequence `it` in which the range visits the
bindings of the built args map is a parameter of the model; an execution
of the Go code corresponds to an `it` that is a permutation of the built
map. -/
def argsFromTokensIter (tokens : List token) (it : List (String × String)) :
    Except String (List String) :=
  match argsLoop tokens [] with
  | .error e => .error e
  | .ok _ => .ok (it.map (fun p => "$" ++ p.1 ++ ": " ++ p.2))

/-- renderOperation with the args-map iteration order explicit. -/
def renderOperationIter (operation : field) (wrapper : String) (fields : Fields)
    (it : List (String × String)) : Except String String :=
  match argsFromTokensIter operation.tokens it with
  | .error e => .error e
  | .ok args =>
    let declName :=
      if args.length > 0 then wrapper ++ "(" ++ String.intercalate ", " args ++ ")"
      else wrapper
    match operation.tokenizeAsRoot declName fields with
    | .error e => .error e
    | .ok r => .ok r.2

/-- marshal with the args-map iteration order of its rendering step made
explicit; identical to marshal otherwise (cache lookup, build, store). -/
def marshalIter (c : Cache) (tkey : String) (t : TypeDesc) (wrapper : String)
    (fields : Fields) (it : List (String × String)) :
    Except String String × Cache :=
  match lookupCache c tkey with
  | some operation => (renderOperationIter operation wrapper fields it, c)
  | none =>
    match buildTree t with
    | .error e => (.error e, c)
    | .ok operation =>
      (renderOperationIter operation wrapper fields it, storeCache c tkey operation)

/-! Sanity theorems: the embedding reproduces the Go test vectors of
query_test.go (modulo the later WithOptions API) and util_test.go. -/

/-- The struct of the Simple test case of TestMarshalQuery. -/
def tSimple : TypeDesc :=
  .mk "" "" [.mk "TestQuery" "" [.mk "FieldOne" "" [], .mk "FieldTwo" "" []]]

/-- The struct of the WithVariables test case. -/
def tWithVars : TypeDesc :=
  .mk "" ""
    [.mk "TestQuery" "testQuery(id:$id<ID!>)" [.mk "FieldOne" "" [], .mk "FieldTwo" "" []]]

/-- The struct of the Complex test case. -/
def tComplex : TypeDesc :=
  .mk "" ""
    [.mk "TestQuery" "testQuery(id:$id<ID!>)"
      [.mk "FieldOne" "@alias(fooBar)" [], .mk "FieldTwo" "@skip($ifCondition)" []]]

theorem marshal_simple_test :
    (marshal [] "T" tSimple "query" none).1 =
      .ok "query \x7b\ntestQuery \x7b\nfieldOne\nfieldTwo\n\x7d\n\x7d" := rfl

theorem marshal_withVariables_test :
    (marshal [] "T" tWithVars "query" none).1 =
      .ok "query($id: ID!) \x7b\ntestQuery(id: $id) \x7b\nfieldOne\nfieldTwo\n\x7d\n\x7d" := by
  decide

theorem marshal_sparse_test :
    (marshal [] "T" tWithVars "query" (some [("fieldOne", .b true)])).1 =
      .ok "query($id: ID!) \x7b\ntestQuery(id: $id) \x7b\nfieldOne\n\x7d\n\x7d" := by
  decide

theorem marshal_complex_test :
    (marshal [] "T" tComplex "query" none).1 =
      .ok "query($id: ID!, $ifCondition: Boolean!) \x7b\ntestQuery(id: $id) \x7b\nfooBar: fieldOne\nfieldTwo @skip(if: $ifCondition)\n\x7d\n\x7d" := by
  decide

theorem toLowerCamelCase_tests :
    toLowerCamelCase "lower camel case this" = "lowerCamelCaseThis" ∧
      toLowerCamelCase "lower-camel-case-this" = "lowerCamelCaseThis" ∧
      toLowerCamelCase "lower_camel_case_this" = "lowerCamelCaseThis" ∧
      toLowerCamelCase "lower.camel.case.this" = "lowerCamelCaseThis" ∧
      toLowerCamelCase "LowerCamelCaseThis" = "lowerCamelCaseThis" ∧
      toLowerCamelCase "ID" = "id" := by
  refine ⟨rfl, rfl, rfl, rfl, rfl, rfl⟩

theorem parseTag_dup_test :
    parseTag "@skip($a),@skip($b)" = .error "duplicate directive in tag \"skip\"" := rfl

theorem parseTag_unknown_test :
    parseTag "@foo(x)" = .error "unknown directive in tag \"foo\"" := rfl

theorem parseTag_garbage_test :
    parseTag "???" = .error "failed to parse tag \"???\"" := rfl

/-! C6: splitTag and parenthesis nesting. -/

theorem splitTagGo_eq_parity :
    ∀ (cs : List Char) (n : Nat) (sb : List Char),
      splitTagGo cs (decide (n % 2 = 1)) sb = splitTagParity cs n sb
  | [], _, _ => rfl
  | r :: rest, n, sb => by
    have e1 : splitToggle r (decide (n % 2 = 1)) = decide (parityBump r n % 2 = 1) := by
      cases hp : (r = '(' || r = ')') with
      | true =>
        rcases Nat.mod_two_eq_zero_or_one n with h | h <;>
          simp [splitToggle, parityBump, hp, h, Nat.add_mod]
      | false => simp [splitToggle, parityBump, hp]
    have e3 : (!decide (parityBump r n % 2 = 1)) = decide (parityBump r n % 2 = 0) := by
      rcases Nat.mod_two_eq_zero_or_one (parityBump r n) with h | h <;> simp [h]
    simp only [splitTagGo, splitTagParity, e1, e3]
    by_cases hc : (r = ',' && decide (parityBump r n % 2 = 0)) = true
    · rw [if_pos hc, if_pos hc, splitTagGo_eq_parity rest (parityBump r n) []]
    · rw [if_neg hc, if_neg hc, splitTagGo_eq_parity rest (parityBump r n) (sb ++ [r])]

/-- C6 counterexample: at nesting depth two a comma does separate: on the
tag `((a,b))` the comma sits inside parentheses yet splitTag splits there,
so commas inside parentheses are not preserved at every nesting depth. -/
theorem splitTag_nested_comma_splits :
    splitTag "((a,b))" = ["((a", "b))"] ∧ splitTag "((a,b))" ≠ ["((a,b))"] :=
  ⟨rfl, by decide⟩

/-- C6 amended: splitTag toggles a boolean at every parenthesis character
instead of tracking nesting depth, so a comma is a clause separator exactly
when an even number of parenthesis characters (of either kind) precede it;
commas inside unnested parentheses are thus protected, but not at even
nesting depths. -/
theorem splitTag_parity_characterization (tag : String) :
    splitTag tag = splitTagParity tag.data 0 [] := by
  have h := splitTagGo_eq_parity tag.data 0 []
  simpa [splitTag] using h

/-! C9: toLowerCamelCase. -/

theorem isSepChar_not_alpha {r : Char} (h : isSepChar r = true) : r.isAlpha = false := by
  have hd : r = ' ' ∨ r = '\t' ∨ r = '\x0d' ∨ r = '\n' ∨ r = '-' ∨ r = '_' ∨ r = '.' := by
    unfold isSepChar Char.isWhitespace at h
    simp only [Bool.or_eq_true, decide_eq_true_eq] at h
    tauto
  rcases hd with h1 | h1 | h1 | h1 | h1 | h1 | h1 <;> (subst h1; decide)

theorem camelGo_eq_amd :
    ∀ cs : List Char, camelGo cs false = specCamelRunAmd cs ∧ camelGo cs true = specCamelAfterSepAmd cs
  | [] => ⟨rfl, rfl⟩
  | r :: rest => by
    have ih := camelGo_eq_amd rest
    by_cases hs : isSepChar r = true
    · have ha := isSepChar_not_alpha hs
      constructor
      · simp only [camelGo, specCamelRunAmd, hs, ha, if_true, Bool.not_false, Bool.true_and]
        exact ih.2
      · simp only [camelGo, specCamelAfterSepAmd, hs, ha, if_true, Bool.not_false, Bool.true_and]
        exact ih.2
    · constructor
      · simp only [camelGo, specCamelRunAmd, hs]
        by_cases ha : r.isAlpha = true <;> simp [ha, hs, ih.1]
      · simp only [camelGo, specCamelAfterSepAmd, hs]
        by_cases ha : r.isAlpha = true <;> simp [ha, hs, ih.1]

/-- C9 counterexample: on `"A_1b"`, the underscore's capitalization is
consumed by the digit `1`, so the next letter `b` stays lowercase and
toLowerCamelCase returns `"a1b"`, while the claim as stated (the next
letter after a separator run is uppercased, other characters pass through
unchanged) produces `"a1B"`. -/
theorem toLowerCamelCase_next_letter_counterexample :
    toLowerCamelCase "A_1b" = "a1b" ∧ specToLowerCamelCase "A_1b" = "a1B" ∧
      toLowerCamelCase "A_1b" ≠ specToLowerCamelCase "A_1b" :=
  ⟨rfl, rfl, by decide⟩

/-- C9 amended: toLowerCamelCase returns the exception-table output when
the whole input matches a table key, the empty input unchanged, and
otherwise the input with its first character lowercased and, for every
subsequent run of separators (whitespace, hyphen, underscore, period),
the separators dropped and the next character — letter or not — uppercased,
all other characters passing through unchanged. -/
theorem toLowerCamelCase_characterization (s : String) :
    toLowerCamelCase s = specToLowerCamelCaseAmd s := by
  unfold toLowerCamelCase specToLowerCamelCaseAmd
  by_cases h0 : s = ""
  · simp [h0]
  · simp only [h0, if_false]
    cases lookupA specialStrings s with
    | some out => rfl
    | none =>
      cases s.data with
      | nil => rfl
      | cons c rest => simp only [(camelGo_eq_amd rest).1]

/-! C10, C1, C5: nil fieldsets, the cache, and failed builds. -/

mutual
/-- With a nil fieldset, field.tokenize never fails, reports the node as
written, and renders every field unconditionally. -/
theorem tokenize_none : ∀ f : field, f.tokenize none = .ok (true, renderAllBody f)
  | .mk d dirs fs keep => by
    cases fs with
    | nil => simp [field.tokenize, renderAllBody]
    | cons f rest =>
      simp [field.tokenize, renderAllBody, tokenizeChildrenRoot_none (f :: rest),
        String.append_assoc]

/-- With a nil fieldset, the children loop renders every child. -/
theorem tokenizeChildrenRoot_none :
    ∀ fs : List field, tokenizeChildrenRoot fs none = .ok (renderAllChildren fs)
  | [] => rfl
  | f :: rest => by
    simp [tokenizeChildrenRoot, renderAllChildren, tokenize_none f,
      tokenizeChildrenRoot_none rest, String.append_assoc]
end

/-- C10: for every choice of delimiters, FieldsFromDelimitedList on the
empty string returns the nil Fields, and the renderer treats that nil
value as "render everything": tokenizeAsRoot then succeeds on every tree,
writing the declaration name and every field unconditionally (rather than
only Keep-flagged fields, which is what a non-nil empty Fields would
select for filtered children). -/
theorem FieldsFromDelimitedList_empty_renders_all
    (fd sd : String) (f : field) (declName : String) :
    FieldsFromDelimitedList "" fd sd = none ∧
      f.tokenizeAsRoot declName (FieldsFromDelimitedList "" fd sd) =
        .ok (true, declName ++ renderAllBody f) := by
  refine ⟨rfl, ?_⟩
  show f.tokenizeAsRoot declName none = .ok (true, declName ++ renderAllBody f)
  unfold field.tokenizeAsRoot
  rw [tokenize_none f]

/-- storeCache followed by lookupCache at the same key yields the stored
tree. -/
theorem lookupCache_store_self : ∀ (c : Cache) (k : String) (op : field),
    lookupCache (storeCache c k op) k = some op
  | [], k, op => by simp [storeCache, lookupCache]
  | (k0, v0) :: rest, k, op => by
    by_cases h : k0 = k
    · simp [storeCache, lookupCache, h]
    · simp [storeCache, lookupCache, h, lookupCache_store_self rest k op]

/-- renderOperation equals renderOperationIter at the first-seen iteration
order of the built args map — one admissible Go execution. -/
theorem renderOperation_eq_iter (operation : field) (wrapper : String)
    (fields : Fields) (m : List (String × String))
    (h : argsLoop operation.tokens [] = .ok m) :
    renderOperation operation wrapper fields =
      renderOperationIter operation wrapper fields m := by
  unfold renderOperation renderOperationIter argsFromTokens argsFromTokensIter
  rw [h]

/-- C1 counterexample: the rendered argument list depends on the
unspecified Go map iteration order, so two successive marshal calls — the
second served from the Tree Cache — need not return identical output
strings.  Both iteration orders below are permutations of the args map
built from the one (cached) tree, i.e. both runs are admissible Go
executions, yet the two outputs differ in the operation header. -/
theorem marshal_identical_output_counterexample :
    (buildTree tComplex).toOption.map (fun op => argsLoop op.tokens []) =
        some (.ok [("id", "ID!"), ("ifCondition", "Boolean!")]) ∧
      List.Perm [("ifCondition", "Boolean!"), ("id", "ID!")]
        [("id", "ID!"), ("ifCondition", "Boolean!")] ∧
      (marshalIter [] "KC1" tComplex "query" none
          [("id", "ID!"), ("ifCondition", "Boolean!")]).1 =
        .ok "query($id: ID!, $ifCondition: Boolean!) \x7b\ntestQuery(id: $id) \x7b\nfooBar: fieldOne\nfieldTwo @skip(if: $ifCondition)\n\x7d\n\x7d" ∧
      (marshalIter (marshalIter [] "KC1" tComplex "query" none
            [("id", "ID!"), ("ifCondition", "Boolean!")]).2 "KC1" tComplex "query"
          none [("ifCondition", "Boolean!"), ("id", "ID!")]).1 =
        .ok "query($ifCondition: Boolean!, $id: ID!) \x7b\ntestQuery(id: $id) \x7b\nfooBar: fieldOne\nfieldTwo @skip(if: $ifCondition)\n\x7d\n\x7d" ∧
      (Except.ok "query($ifCondition: Boolean!, $id: ID!) \x7b\ntestQuery(id: $id) \x7b\nfooBar: fieldOne\nfieldTwo @skip(if: $ifCondition)\n\x7d\n\x7d" :
          Except String String) ≠
        .ok "query($id: ID!, $ifCondition: Boolean!) \x7b\ntestQuery(id: $id) \x7b\nfooBar: fieldOne\nfieldTwo @skip(if: $ifCondition)\n\x7d\n\x7d" :=
  ⟨by decide, by decide, by decide, by decide, by decide⟩

/-- C1 amended: with the unspecified iteration order of the args map made
explicit, a second marshal call with the same type key, type description,
operation keyword, fieldset and iteration order returns exactly the first
call's result — the same output string or error and the very same cache;
and under any two iteration orders the two calls leave identical caches,
so a call served from the cache leaves the cached Field Tree unmodified
(the current marshal computes the root declaration name locally and
rendering is read-only on the tree, so no call mutates the stored tree's
root declaration or keep flag). -/
theorem marshal_cached_idempotent_mod_order (c : Cache) (k : String)
    (t : TypeDesc) (w : String) (F : Fields) (it it2 : List (String × String)) :
    marshalIter (marshalIter c k t w F it).2 k t w F it = marshalIter c k t w F it ∧
      (marshalIter c k t w F it).2 = (marshalIter c k t w F it2).2 := by
  constructor
  · cases h : lookupCache c k with
    | some op => simp [marshalIter, h]
    | none =>
      cases hb : buildTree t with
      | error e => simp [marshalIter, h, hb]
      | ok op => simp [marshalIter, h, hb, lookupCache_store_self]
  · cases h : lookupCache c k with
    | some op => simp [marshalIter, h]
    | none =>
      cases hb : buildTree t with
      | error e => simp [marshalIter, h, hb]
      | ok op => simp [marshalIter, h, hb]

/-- C5 counterexample: a build whose argument collection fails with the
type-conflict error nevertheless leaves the freshly built tree in the
cache: marshal stores the tree before argsFromTokens runs, so the claim
that nothing is cached unless the build fully succeeds fails here. -/
theorem marshal_conflict_caches_tree :
    (marshal [] "TC5" tCacheConflict "query" none).1 =
        .error "argument $v cannot have more than one type" ∧
      (lookupCache (marshal [] "TC5" tCacheConflict "query" none).2 "TC5").isSome = true :=
  ⟨by decide, by decide⟩

/-- C5 amended: on a cache miss, only a failure of the tree build itself
(a grammar error from parseTag, surfaced through walk) leaves the cache
unaffected; when the build succeeds the tree is stored unconditionally —
before argument collection and rendering — so a type-conflict or
fieldset-shape error later in the same call leaves the entry in place. -/
theorem marshal_error_cache_effect (c : Cache) (k : String) (t : TypeDesc)
    (w : String) (F : Fields) (h : lookupCache c k = none) :
    (marshal c k t w F).2 =
      match buildTree t with
      | .error _ => c
      | .ok op => storeCache c k op := by
  cases hb : buildTree t with
  | error e => simp [marshal, h, hb]
  | ok op => simp [marshal, h, hb]

/-- Witness for the amended C5 theorem at a concrete conflicting type. -/
theorem marshal_error_cache_effect_witness :
    lookupCache [] "W5" = none ∧
      (marshal [] "W5" tCacheConflict "query" none).2 =
        (match buildTree tCacheConflict with
         | .error _ => ([] : Cache)
         | .ok op => storeCache [] "W5" op) :=
  ⟨rfl, marshal_error_cache_effect [] "W5" tCacheConflict "query" none rfl⟩

/-! C7: the union of two Fields maps. -/

theorem lookupFM_setF : ∀ (m : FMap) (k : String) (v : FVal) (k' : String),
    lookupFM (setF m k v) k' = if k = k' then some v else lookupFM m k'
  | [], _, _, _ => rfl
  | (k0, v0) :: rest, k, v, k' => by
    by_cases h : k0 = k
    · subst h
      by_cases h2 : k0 = k'
      · subst h2; simp [setF, lookupFM]
      · simp [setF, lookupFM, h2]
    · by_cases h2 : k0 = k'
      · subst h2
        have hk : ¬ k = k0 := fun hh => h hh.symm
        simp [setF, lookupFM, h, hk]
      · simp [setF, lookupFM, h, h2, lookupFM_setF rest k v k']

theorem lookupFM_none_of_not_mem :
    ∀ (m : FMap) (a : String), a ∉ m.map Prod.fst → lookupFM m a = none
  | [], _, _ => rfl
  | (k0, v0) :: rest, a, h => by
    simp only [List.map_cons, List.mem_cons] at h
    push_neg at h
    have hk : k0 ≠ a := Ne.symm h.1
    simp [lookupFM, hk, lookupFM_none_of_not_mem rest a h.2]

theorem unionKey_lookup (x : FMap) (k : String) (v : FVal) (k' : String) :
    lookupFM (unionKey x k v) k' =
      if k = k' then some (unionVal (lookupFM x k) v) else lookupFM x k' := by
  unfold unionKey
  cases hx : lookupFM x k with
  | none => simp [unionVal, lookupFM_setF]
  | some xv =>
    cases xv with
    | b bv => simp [unionVal, lookupFM_setF]
    | str sv => simp [unionVal, lookupFM_setF]
    | sub xm =>
      cases v with
      | sub ym => simp [unionVal, lookupFM_setF]
      | b bv =>
        by_cases h : k = k'
        · subst h; simp [unionVal, hx]
        · simp [h]
      | str sv =>
        by_cases h : k = k'
        · subst h; simp [unionVal, hx]
        · simp [h]

/-- C7 counterexample: on a collision of two scalar leaf values of
different types the second argument's value wins, not the first's:
Union of `\x7b"k": true\x7d` with `\x7b"k": "x"\x7d` maps `"k"` to `"x"`. -/
theorem Union_scalar_second_wins :
    Union [("k", FVal.b true)] [("k", FVal.str "x")] = [("k", FVal.str "x")] ∧
      lookupFM (Union [("k", FVal.b true)] [("k", FVal.str "x")]) "k" ≠
        some (FVal.b true) := by
  refine ⟨rfl, ?_⟩
  intro h
  have h2 : some (FVal.str "x") = some (FVal.b true) := h
  exact FVal.noConfusion (Option.some.inj h2)

/-- C7 amended: for maps without duplicate keys (as Go maps are), Union
maps a key present in only one argument to that argument's value; two
nested maps merge recursively; a nested map wins over a non-map value on
either side; and on a collision of two non-map leaf values (equal-typed or
type-mismatched) the second argument's value takes precedence over the
first's. -/
theorem Union_lookup (x y : FMap) (k : String) (hy : (y.map Prod.fst).Nodup) :
    lookupFM (Union x y) k =
      match lookupFM y k with
      | none => lookupFM x k
      | some yv => some (unionVal (lookupFM x k) yv) := by
  induction y generalizing x with
  | nil => simp [Union, lookupFM]
  | cons p rest ih =>
    obtain ⟨k0, v0⟩ := p
    simp only [List.map_cons, List.nodup_cons] at hy
    have hrec := ih (unionKey x k0 v0) hy.2
    show lookupFM (Union (unionKey x k0 v0) rest) k = _
    rw [hrec]
    by_cases h : k0 = k
    · subst h
      have hnone : lookupFM rest k0 = none :=
        lookupFM_none_of_not_mem rest k0 hy.1
      simp [lookupFM, hnone, unionKey_lookup]
    · simp [lookupFM, h, unionKey_lookup, Ne.symm h]

/-- Witness for the amended C7 characterization at concrete maps. -/
theorem Union_lookup_witness :
    (([("a", FVal.b true)] : FMap).map Prod.fst).Nodup ∧
      lookupFM (Union [("b", FVal.b false)] [("a", FVal.b true)]) "a" =
        (match lookupFM [("a", FVal.b true)] "a" with
         | none => lookupFM ([("b", FVal.b false)] : FMap) "a"
         | some yv => some (unionVal (lookupFM [("b", FVal.b false)] "a") yv)) :=
  ⟨by simp, Union_lookup [("b", FVal.b false)] [("a", FVal.b true)] "a" (by simp)⟩

/-! C2, C3: rendering decisions of tokenizeWithFields. -/

mutual
/-- Under a nil or non-bool non-map scope value, a field is written iff its
Keep flag is set, rendering never fails, and a written field shows exactly
its Keep-flagged descendants. -/
theorem tokenizeWithFields_triv :
    ∀ (f : field) (v : Option FVal), scopeTriv v →
      f.tokenizeWithFields v = .ok (f.Keep, if f.Keep then keepRenderText f else "")
  | .mk d dirs fs keep, v, hv => by
    have hns : scopeNotSub v := by
      rcases hv with h | ⟨s, h⟩ <;> subst h <;> intro m hm <;> simp at hm
    have hchildren := tokenizeChildrenWF_notsub fs v hns
    rcases hv with h | ⟨s, h⟩ <;> subst h <;>
      cases keep <;> cases fs <;>
        simp [field.tokenizeWithFields, field.Keep, keepRenderText, hchildren,
          String.append_assoc]

/-- When the parent's scope value is not a Fields map, every child is
rendered under the nil scope: only Keep-flagged children appear and the
loop never fails. -/
theorem tokenizeChildrenWF_notsub :
    ∀ (fs : List field) (v : Option FVal), scopeNotSub v →
      tokenizeChildrenWF fs v = .ok (keepRenderChildren fs)
  | [], _, _ => rfl
  | f :: rest, v, hv => by
    have hf := tokenizeWithFields_triv f none (Or.inl rfl)
    have hr := tokenizeChildrenWF_notsub rest v hv
    cases v with
    | none =>
      cases hk : f.Keep <;>
        simp [tokenizeChildrenWF, hf, hr, hk, keepRenderChildren]
    | some vv =>
      cases vv with
      | b bv =>
        cases hk : f.Keep <;>
          simp [tokenizeChildrenWF, hf, hr, hk, keepRenderChildren]
      | str sv =>
        cases hk : f.Keep <;>
          simp [tokenizeChildrenWF, hf, hr, hk, keepRenderChildren]
      | sub m => exact absurd rfl (hv m)
end

/-- field.tokenize always reports the node as written on success. -/
theorem tokenize_written (f : field) (fields : Fields) (p : Bool × String)
    (h : f.tokenize fields = .ok p) : p.1 = true := by
  obtain ⟨d, dirs, fs, keep⟩ := f
  cases fs with
  | nil =>
    simp only [field.tokenize] at h
    cases h
    rfl
  | cons f0 rest =>
    simp only [field.tokenize] at h
    cases hc : tokenizeChildrenRoot (f0 :: rest) fields with
    | error e => rw [hc] at h; simp at h
    | ok body => rw [hc] at h; simp at h; simp [← h]

/-- C2: the code errs on a `false` fieldset entry for a node with
children.  On a Keep-unset node `parent` with one child whose scope entry
is boolean `false`, rendering fails with the fieldset-shape error — whose
own message says "set to true" — instead of silently omitting the node as
the specification states.  Evaluation of the code at the failing input: -/
theorem tokenizeWithFields_false_with_children_errors :
    (field.mk ⟨"parent", "", [], ""⟩ [] [.mk ⟨"child", "", [], ""⟩ [] [] false] false).Keep
        = false ∧
      (field.mk ⟨"parent", "", [], ""⟩ [] [.mk ⟨"child", "", [], ""⟩ [] [] false]
          false).tokenizeWithFields (some (FVal.b false)) =
        .error "field parent set to true in sparse fieldset map has children fields, needs submap for children fields" :=
  ⟨rfl, rfl⟩

/-- C3 counterexample: a Keep=true node is not written unconditionally:
with a boolean `true` scope entry and children present, rendering fails
with the fieldset-shape error before the Keep flag is consulted. -/
theorem keep_node_true_entry_fails :
    (field.mk ⟨"k", "", [], ""⟩ [] [.mk ⟨"child", "", [], ""⟩ [] [] false] true).Keep
        = true ∧
      (field.mk ⟨"k", "", [], ""⟩ [] [.mk ⟨"child", "", [], ""⟩ [] [] false]
          true).tokenizeWithFields (some (FVal.b true)) =
        .error (errBoolChildren "k") :=
  ⟨rfl, rfl⟩

/-- C3 amended: a Keep=true field is written, and rendering of it does not
fail, whenever its scope entry passes the shape switch: under a nil scope,
a non-bool non-map scalar entry, or a boolean entry on a childless node
(even `false` — Keep overrides the exclusion); but a boolean entry on a
node with children, or a map entry on a childless node, still fails with
the fieldset-shape error despite Keep.  The synthetic root is written
unconditionally by tokenizeAsRoot, which emits the supplied declaration
name and whose body renderer always reports the root as written —
without forcing the root's Keep flag. -/
theorem keep_rendering_characterization :
    (∀ f : field, f.Keep = true →
        f.tokenizeWithFields none = .ok (true, keepRenderText f))
      ∧ (∀ (f : field) (s : String), f.Keep = true →
          f.tokenizeWithFields (some (FVal.str s)) = .ok (true, keepRenderText f))
      ∧ (∀ (f : field) (b : Bool), f.Keep = true → f.Fields = [] →
          f.tokenizeWithFields (some (FVal.b b)) = .ok (true, keepRenderText f))
      ∧ (∀ (f : field) (b : Bool), f.Fields ≠ [] →
          f.tokenizeWithFields (some (FVal.b b)) = .error (errBoolChildren f.Decl.Name))
      ∧ (∀ (f : field) (m : FMap), f.Fields = [] →
          f.tokenizeWithFields (some (FVal.sub m)) = .error (errSubNoChildren f.Decl.Name))
      ∧ (∀ (f : field) (declName : String) (fields : Fields) (r : Bool × String),
          f.tokenizeAsRoot declName fields = .ok r →
            r.1 = true ∧ ∃ s, r.2 = declName ++ s) := by
  refine ⟨?_, ?_, ?_, ?_, ?_, ?_⟩
  · intro f hk
    rw [tokenizeWithFields_triv f none (Or.inl rfl), hk]
    simp
  · intro f s hk
    rw [tokenizeWithFields_triv f (some (FVal.str s)) (Or.inr ⟨s, rfl⟩), hk]
    simp
  · intro f b hk hfs
    obtain ⟨d, dirs, fs, keep⟩ := f
    simp only [field.Fields] at hfs
    simp only [field.Keep] at hk
    subst hfs; subst hk
    simp [field.tokenizeWithFields, keepRenderText]
  · intro f b hfs
    obtain ⟨d, dirs, fs, keep⟩ := f
    simp only [field.Fields] at hfs
    cases fs with
    | nil => exact absurd rfl hfs
    | cons f0 rest => simp [field.tokenizeWithFields, field.Decl, errBoolChildren]
  · intro f m hfs
    obtain ⟨d, dirs, fs, keep⟩ := f
    simp only [field.Fields] at hfs
    subst hfs
    simp [field.tokenizeWithFields, field.Decl, errSubNoChildren]
  · intro f declName fields r h
    unfold field.tokenizeAsRoot at h
    cases ht : f.tokenize fields with
    | error e => rw [ht] at h; simp at h
    | ok p =>
      rw [ht] at h
      simp only [Except.ok.injEq] at h
      have hw := tokenize_written f fields p ht
      subst h
      exact ⟨hw, p.2, rfl⟩

/-- Witness for the amended C3 characterization: a Keep-flagged childless
field with a boolean `false` entry is still written. -/
theorem keep_rendering_characterization_witness :
    (field.mk ⟨"a", "", [], ""⟩ [] [] true).tokenizeWithFields (some (FVal.b false)) =
      .ok (true, keepRenderText (field.mk ⟨"a", "", [], ""⟩ [] [] true)) :=
  keep_rendering_characterization.2.2.1 (field.mk ⟨"a", "", [], ""⟩ [] [] true) false rfl rfl

/-! C4: argument collection and type conflicts. -/

theorem lookupA_mem {α : Type} :
    ∀ (m : List (String × α)) (a : String) (k : α), lookupA m a = some k → (a, k) ∈ m
  | [], _, _, h => by simp [lookupA] at h
  | (k0, v0) :: rest, a, k, h => by
    by_cases h0 : k0 = a
    · subst h0
      simp [lookupA] at h
      subst h
      exact List.mem_cons_self _ _
    · simp [lookupA, h0] at h
      exact List.mem_cons_of_mem _ (lookupA_mem rest a k h)

theorem lookupA_eq_none {α : Type} :
    ∀ (m : List (String × α)) (a : String), lookupA m a = none ↔ a ∉ m.map Prod.fst
  | [], a => by simp [lookupA]
  | (k0, v0) :: rest, a => by
    simp only [lookupA, List.map_cons, List.mem_cons]
    by_cases h0 : k0 = a
    · subst h0
      simp
    · rw [if_neg h0, lookupA_eq_none rest a]
      constructor
      · intro h hc
        rcases hc with hc | hc
        · exact h0 hc.symm
        · exact h hc
      · intro h hc
        exact h (Or.inr hc)

theorem lookupA_append_left {α : Type} :
    ∀ (m l : List (String × α)) (a : String) (k : α),
      lookupA m a = some k → lookupA (m ++ l) a = some k
  | [], _, _, _, h => by simp [lookupA] at h
  | (k0, v0) :: rest, l, a, k, h => by
    by_cases h0 : k0 = a
    · subst h0; simp [lookupA] at h ⊢; exact h
    · simp [lookupA, h0] at h ⊢
      exact lookupA_append_left rest l a k h

theorem lookupA_append_single_none {α : Type} :
    ∀ (m : List (String × α)) (a a0 : String) (k0 : α), lookupA m a = none →
      lookupA (m ++ [(a0, k0)]) a = if a0 = a then some k0 else none
  | [], a, a0, k0, _ => by simp [lookupA]
  | (kh, vh) :: rest, a, a0, k0, h => by
    by_cases h0 : kh = a
    · subst h0; simp [lookupA] at h
    · simp [lookupA, h0] at h ⊢
      exact lookupA_append_single_none rest a a0 k0 h

theorem lookupA_append_single_inv {α : Type} (m : List (String × α)) (a a0 : String)
    (k0 k : α) (h : lookupA (m ++ [(a0, k0)]) a = some k) :
    lookupA m a = some k ∨ (lookupA m a = none ∧ a0 = a ∧ k = k0) := by
  cases hm : lookupA m a with
  | some k' =>
    rw [lookupA_append_left m [(a0, k0)] a k' hm] at h
    injection h with hkk
    subst hkk
    exact Or.inl rfl
  | none =>
    rw [lookupA_append_single_none m a a0 k0 hm] at h
    by_cases h0 : a0 = a
    · rw [if_pos h0] at h
      injection h with hkk
      subst hkk
      exact Or.inr ⟨rfl, h0, rfl⟩
    · rw [if_neg h0] at h
      cases h

theorem argsLoop_step_eq_ok (t0 : token) (rest : List token)
    (m : List (String × String)) (k0 : String) (hl : lookupA m t0.Arg = some k0)
    (heq : t0.Kind = k0) : argsLoop (t0 :: rest) m = argsLoop rest m := by
  simp [argsLoop, hl, heq]

theorem argsLoop_step_eq_new (t0 : token) (rest : List token)
    (m : List (String × String)) (hl : lookupA m t0.Arg = none) :
    argsLoop (t0 :: rest) m = argsLoop rest (m ++ [(t0.Arg, t0.Kind)]) := by
  simp [argsLoop, hl]

theorem argsLoop_step_eq_err (t0 : token) (rest : List token)
    (m : List (String × String)) (k0 : String) (hl : lookupA m t0.Arg = some k0)
    (hne : ¬ t0.Kind = k0) :
    argsLoop (t0 :: rest) m =
      .error ("argument $" ++ t0.Arg ++ " cannot have more than one type") := by
  simp [argsLoop, hl, hne]

theorem argsLoop_error_of_mconflict :
    ∀ (ts : List token) (m : List (String × String)),
      (∃ t ∈ ts, ∃ k, lookupA m t.Arg = some k ∧ t.Kind ≠ k) →
      ∃ e, argsLoop ts m = .error e
  | [], _, h => by
    rcases h with ⟨t, ht, _⟩
    exact absurd ht (List.not_mem_nil t)
  | t0 :: rest, m, h => by
    rcases h with ⟨t, ht, k, hk, hne⟩
    cases hl : lookupA m t0.Arg with
    | some k0 =>
      by_cases hne0 : t0.Kind = k0
      · rw [argsLoop_step_eq_ok t0 rest m k0 hl hne0]
        apply argsLoop_error_of_mconflict rest m
        rcases List.mem_cons.mp ht with rfl | hmem
        · rw [hl] at hk
          cases hk
          exact absurd hne0 hne
        · exact ⟨t, hmem, k, hk, hne⟩
      · exact ⟨_, argsLoop_step_eq_err t0 rest m k0 hl hne0⟩
    | none =>
      rw [argsLoop_step_eq_new t0 rest m hl]
      apply argsLoop_error_of_mconflict rest _
      rcases List.mem_cons.mp ht with rfl | hmem
      · rw [hl] at hk
        cases hk
      · exact ⟨t, hmem, k, lookupA_append_left m _ t.Arg k hk, hne⟩

theorem argsLoop_error_of_pair :
    ∀ (ts : List token) (m : List (String × String)),
      (∃ t1 ∈ ts, ∃ t2 ∈ ts, t1.Arg = t2.Arg ∧ t1.Kind ≠ t2.Kind) →
      ∃ e, argsLoop ts m = .error e
  | [], _, h => by
    rcases h with ⟨t, ht, _⟩
    exact absurd ht (List.not_mem_nil t)
  | t0 :: rest, m, h => by
    rcases h with ⟨t1, ht1, t2, ht2, harg, hkind⟩
    cases hl : lookupA m t0.Arg with
    | some k0 =>
      by_cases hne0 : t0.Kind = k0
      · rw [argsLoop_step_eq_ok t0 rest m k0 hl hne0]
        rcases List.mem_cons.mp ht1 with rfl | hm1 <;> rcases List.mem_cons.mp ht2 with rfl | hm2
        · exact absurd rfl hkind
        · apply argsLoop_error_of_mconflict rest m
          exact ⟨t2, hm2, k0, harg ▸ hl, fun hh => hkind (hne0.trans hh.symm)⟩
        · apply argsLoop_error_of_mconflict rest m
          exact ⟨t1, hm1, k0, harg.symm ▸ hl, fun hh => hkind (hh.trans hne0.symm)⟩
        · exact argsLoop_error_of_pair rest m ⟨t1, hm1, t2, hm2, harg, hkind⟩
      · exact ⟨_, argsLoop_step_eq_err t0 rest m k0 hl hne0⟩
    | none =>
      rw [argsLoop_step_eq_new t0 rest m hl]
      rcases List.mem_cons.mp ht1 with rfl | hm1 <;> rcases List.mem_cons.mp ht2 with rfl | hm2
      · exact absurd rfl hkind
      · apply argsLoop_error_of_mconflict rest _
        refine ⟨t2, hm2, t1.Kind, ?_, fun hh => hkind hh.symm⟩
        have h2 : lookupA m t2.Arg = none := harg ▸ hl
        rw [lookupA_append_single_none m t2.Arg t1.Arg t1.Kind h2, if_pos harg]
      · apply argsLoop_error_of_mconflict rest _
        refine ⟨t1, hm1, t2.Kind, ?_, hkind⟩
        have h2 : lookupA m t1.Arg = none := harg.symm ▸ hl
        rw [lookupA_append_single_none m t1.Arg t2.Arg t2.Kind h2, if_pos harg.symm]
      · exact argsLoop_error_of_pair rest _ ⟨t1, hm1, t2, hm2, harg, hkind⟩

theorem argsLoop_error_shape :
    ∀ (ts : List token) (m : List (String × String)) (e : String),
      argsLoop ts m = .error e →
      ∃ t ∈ ts, e = "argument $" ++ t.Arg ++ " cannot have more than one type" ∧
        ∃ k, t.Kind ≠ k ∧
          (lookupA m t.Arg = some k ∨ ∃ t2 ∈ ts, t2.Arg = t.Arg ∧ t2.Kind = k)
  | [], m, e, h => by simp [argsLoop] at h
  | t0 :: rest, m, e, h => by
    cases hl : lookupA m t0.Arg with
    | some k0 =>
      by_cases hne0 : t0.Kind = k0
      · rw [argsLoop_step_eq_ok t0 rest m k0 hl hne0] at h
        obtain ⟨t, ht, he, k, hk, hsrc⟩ := argsLoop_error_shape rest m e h
        refine ⟨t, List.mem_cons_of_mem _ ht, he, k, hk, ?_⟩
        rcases hsrc with h1 | ⟨t2, ht2, h2⟩
        · exact Or.inl h1
        · exact Or.inr ⟨t2, List.mem_cons_of_mem _ ht2, h2⟩
      · rw [argsLoop_step_eq_err t0 rest m k0 hl hne0] at h
        injection h with he
        exact ⟨t0, List.mem_cons_self _ _, he.symm, k0, hne0, Or.inl hl⟩
    | none =>
      rw [argsLoop_step_eq_new t0 rest m hl] at h
      obtain ⟨t, ht, he, k, hk, hsrc⟩ := argsLoop_error_shape rest _ e h
      refine ⟨t, List.mem_cons_of_mem _ ht, he, k, hk, ?_⟩
      rcases hsrc with h1 | ⟨t2, ht2, h2⟩
      · rcases lookupA_append_single_inv m t.Arg t0.Arg t0.Kind k h1 with h2 | ⟨_, ha, hkk⟩
        · exact Or.inl h2
        · exact Or.inr ⟨t0, List.mem_cons_self _ _, ha, hkk.symm⟩
      · exact Or.inr ⟨t2, List.mem_cons_of_mem _ ht2, h2⟩

theorem argsLoop_extends :
    ∀ (ts : List token) (m m' : List (String × String)),
      argsLoop ts m = .ok m' → ∀ p ∈ m, p ∈ m'
  | [], m, m', h => by
    simp [argsLoop] at h
    subst h
    exact fun p hp => hp
  | t0 :: rest, m, m', h => by
    cases hl : lookupA m t0.Arg with
    | some k0 =>
      by_cases hne0 : t0.Kind = k0
      · rw [argsLoop_step_eq_ok t0 rest m k0 hl hne0] at h
        exact argsLoop_extends rest m m' h
      · rw [argsLoop_step_eq_err t0 rest m k0 hl hne0] at h
        cases h
    | none =>
      rw [argsLoop_step_eq_new t0 rest m hl] at h
      intro p hp
      exact argsLoop_extends rest _ m' h p (List.mem_append_left _ hp)

theorem argsLoop_token_mem :
    ∀ (ts : List token) (m m' : List (String × String)),
      argsLoop ts m = .ok m' → ∀ t ∈ ts, (t.Arg, t.Kind) ∈ m'
  | [], _, _, _ => by
    intro t ht
    exact absurd ht (List.not_mem_nil t)
  | t0 :: rest, m, m', h => by
    intro t ht
    cases hl : lookupA m t0.Arg with
    | some k0 =>
      by_cases hne0 : t0.Kind = k0
      · rw [argsLoop_step_eq_ok t0 rest m k0 hl hne0] at h
        rcases List.mem_cons.mp ht with rfl | hmem
        · have hm := lookupA_mem m t.Arg k0 hl
          rw [← hne0] at hm
          exact argsLoop_extends rest m m' h _ hm
        · exact argsLoop_token_mem rest m m' h t hmem
      · rw [argsLoop_step_eq_err t0 rest m k0 hl hne0] at h
        cases h
    | none =>
      rw [argsLoop_step_eq_new t0 rest m hl] at h
      rcases List.mem_cons.mp ht with rfl | hmem
      · exact argsLoop_extends rest _ m' h _ (by simp)
      · exact argsLoop_token_mem rest _ m' h t hmem

theorem argsLoop_nodup :
    ∀ (ts : List token) (m m' : List (String × String)),
      argsLoop ts m = .ok m' → (m.map Prod.fst).Nodup → (m'.map Prod.fst).Nodup
  | [], m, m', h => by
    simp [argsLoop] at h
    subst h
    exact fun hm => hm
  | t0 :: rest, m, m', h => by
    intro hm
    cases hl : lookupA m t0.Arg with
    | some k0 =>
      by_cases hne0 : t0.Kind = k0
      · rw [argsLoop_step_eq_ok t0 rest m k0 hl hne0] at h
        exact argsLoop_nodup rest m m' h hm
      · rw [argsLoop_step_eq_err t0 rest m k0 hl hne0] at h
        cases h
    | none =>
      rw [argsLoop_step_eq_new t0 rest m hl] at h
      apply argsLoop_nodup rest _ m' h
      have hnotin : t0.Arg ∉ m.map Prod.fst := (lookupA_eq_none m t0.Arg).mp hl
      simp [List.nodup_append, hm, hnotin]

/-- C4: over the tokens gathered from a Field Tree, argsFromTokens fails
if and only if two tokens anywhere in the tree share the same variable
name with two different kind strings (so two distinct variable names never
conflict); the error names a conflicting variable; and on success the
collected args map binds each variable exactly once, every token's
variable/kind pair appears in it, and the output renders one
`$arg: Kind` entry per binding. -/
theorem argsFromTokens_conflicts (f : field) :
    ((∃ e, argsFromTokens f.tokens = .error e) ↔
        ∃ t1 ∈ f.tokens, ∃ t2 ∈ f.tokens, t1.Arg = t2.Arg ∧ t1.Kind ≠ t2.Kind)
      ∧ (∀ e, argsFromTokens f.tokens = .error e →
          ∃ t ∈ f.tokens,
            e = "argument $" ++ t.Arg ++ " cannot have more than one type" ∧
              ∃ t2 ∈ f.tokens, t2.Arg = t.Arg ∧ t2.Kind ≠ t.Kind)
      ∧ (∀ m, argsLoop f.tokens [] = .ok m →
          (m.map Prod.fst).Nodup ∧ (∀ t ∈ f.tokens, (t.Arg, t.Kind) ∈ m) ∧
            argsFromTokens f.tokens =
              .ok (m.map (fun p => "$" ++ p.1 ++ ": " ++ p.2))) := by
  refine ⟨⟨?_, ?_⟩, ?_, ?_⟩
  · rintro ⟨e, he⟩
    have hloop : argsLoop f.tokens [] = .error e := by
      unfold argsFromTokens at he
      cases hr : argsLoop f.tokens [] with
      | error e2 => rw [hr] at he; injection he with he2; rw [he2]
      | ok m => rw [hr] at he; cases he
    obtain ⟨t, ht, he2, k, hk, hsrc⟩ := argsLoop_error_shape f.tokens [] e hloop
    rcases hsrc with h1 | ⟨t2, ht2, harg, hkind⟩
    · simp [lookupA] at h1
    · exact ⟨t2, ht2, t, ht, harg, fun hh => hk (hh.symm.trans hkind)⟩
  · rintro ⟨t1, ht1, t2, ht2, harg, hkind⟩
    obtain ⟨e, he⟩ := argsLoop_error_of_pair f.tokens [] ⟨t1, ht1, t2, ht2, harg, hkind⟩
    refine ⟨e, ?_⟩
    unfold argsFromTokens
    rw [he]
  · intro e he
    have hloop : argsLoop f.tokens [] = .error e := by
      unfold argsFromTokens at he
      cases hr : argsLoop f.tokens [] with
      | error e2 => rw [hr] at he; injection he with he2; rw [he2]
      | ok m => rw [hr] at he; cases he
    obtain ⟨t, ht, he2, k, hk, hsrc⟩ := argsLoop_error_shape f.tokens [] e hloop
    rcases hsrc with h1 | ⟨t2, ht2, harg, hkind⟩
    · simp [lookupA] at h1
    · exact ⟨t, ht, he2, t2, ht2, harg, fun hh => hk (hh.symm.trans hkind)⟩
  · intro m hm
    refine ⟨argsLoop_nodup f.tokens [] m hm (by simp),
      argsLoop_token_mem f.tokens [] m hm, ?_⟩
    unfold argsFromTokens
    rw [hm]

/-- Witness for C4 at a concrete one-token tree: collection succeeds with
a single deduplicated binding. -/
theorem argsFromTokens_conflicts_witness :
    ((([("v", "Int")] : List (String × String)).map Prod.fst).Nodup ∧
        (∀ t ∈ (field.mk ⟨"q", "", [⟨"Int", "x", "v"⟩], ""⟩ [] [] false).tokens,
          (t.Arg, t.Kind) ∈ ([("v", "Int")] : List (String × String))) ∧
        argsFromTokens (field.mk ⟨"q", "", [⟨"Int", "x", "v"⟩], ""⟩ [] [] false).tokens =
          .ok ["$v: Int"]) :=
  (argsFromTokens_conflicts (field.mk ⟨"q", "", [⟨"Int", "x", "v"⟩], ""⟩ [] [] false)).2.2
    [("v", "Int")] rfl

/-! C8: duplicate directives and the alias in parseTag. -/

theorem stringDataEq {s t : String} (h : s.data = t.data) : s = t := by
  cases s
  cases t
  simp only at h
  rw [h]

theorem charListLt_irrefl : ∀ a : List Char, charListLt a a = false
  | [] => rfl
  | c :: cs => by simp [charListLt, charListLt_irrefl cs]

theorem charListLt_conn :
    ∀ a b : List Char, charListLt a b = false → charListLt b a = false → a = b
  | [], [], _, _ => rfl
  | [], _ :: _, h1, _ => by simp [charListLt] at h1
  | _ :: _, [], _, h2 => by simp [charListLt] at h2
  | a :: as, b :: bs, h1, h2 => by
    by_cases hab : a.toNat < b.toNat
    · simp [charListLt, hab] at h1
    · by_cases hba : b.toNat < a.toNat
      · simp [charListLt, hba] at h2
      · have hn : a.toNat = b.toNat := by omega
        have ha : a = b := Char.ext (UInt32.ext hn)
        subst ha
        simp [charListLt, hab] at h1 h2
        rw [charListLt_conn as bs h1 h2]

theorem charListLt_asymm :
    ∀ a b : List Char, charListLt a b = true → charListLt b a = false
  | [], [], h => by simp [charListLt] at h
  | [], _ :: _, _ => rfl
  | _ :: _, [], h => by simp [charListLt] at h
  | a :: as, b :: bs, h => by
    by_cases hab : a.toNat < b.toNat
    · have : ¬ b.toNat < a.toNat := by omega
      simp [charListLt, this, hab]
    · by_cases hba : b.toNat < a.toNat
      · simp [charListLt, hab, hba] at h
      · simp [charListLt, hab, hba] at h ⊢
        exact charListLt_asymm as bs h

theorem charListLt_trans :
    ∀ a b c : List Char, charListLt a b = true → charListLt b c = true →
      charListLt a c = true
  | [], [], _, h1, _ => by simp [charListLt] at h1
  | [], _ :: _, [], _, h2 => by simp [charListLt] at h2
  | [], _ :: _, _ :: _, _, _ => rfl
  | _ :: _, [], _, h1, _ => by simp [charListLt] at h1
  | _ :: _, _ :: _, [], _, h2 => by simp [charListLt] at h2
  | a :: as, b :: bs, c :: cs, h1, h2 => by
    by_cases hab : a.toNat < b.toNat
    · by_cases hbc : b.toNat < c.toNat
      · simp [charListLt, show a.toNat < c.toNat by omega]
      · by_cases hcb : c.toNat < b.toNat
        · simp [charListLt, hbc, hcb] at h2
        · have hb : b.toNat = c.toNat := by omega
          simp [charListLt, show a.toNat < c.toNat by omega]
    · by_cases hba : b.toNat < a.toNat
      · simp [charListLt, hab, hba] at h1
      · have haeq : a.toNat = b.toNat := by omega
        simp [charListLt, hab, hba] at h1
        by_cases hbc : b.toNat < c.toNat
        · simp [charListLt, show a.toNat < c.toNat by omega]
        · by_cases hcb : c.toNat < b.toNat
          · simp [charListLt, hbc, hcb] at h2
          · simp [charListLt, hbc, hcb] at h2
            simp [charListLt, show ¬ a.toNat < c.toNat by omega,
              show ¬ c.toNat < a.toNat by omega]
            exact charListLt_trans as bs cs h1 h2

theorem mem_insertDirective {w x : directive} :
    ∀ l : List directive, w ∈ insertDirective x l ↔ w = x ∨ w ∈ l
  | [] => by simp [insertDirective]
  | y :: rest => by
    by_cases h : strLtB x.Typ y.Typ = true
    · simp [insertDirective, h]
    · rw [insertDirective, if_neg h]
      simp only [List.mem_cons, mem_insertDirective rest]
      tauto

theorem pairwise_insertDirective {x : directive} :
    ∀ l : List directive, List.Pairwise dirLe l → List.Pairwise dirLe (insertDirective x l)
  | [], _ => by simp [insertDirective, List.pairwise_cons]
  | y :: rest, hp => by
    obtain ⟨hy, hrest⟩ := List.pairwise_cons.mp hp
    by_cases h : strLtB x.Typ y.Typ = true
    · rw [insertDirective, if_pos h]
      refine List.pairwise_cons.mpr ⟨?_, hp⟩
      intro w hw
      rcases List.mem_cons.mp hw with rfl | hw2
      · exact charListLt_asymm _ _ h
      · show charListLt w.Typ.data x.Typ.data = false
        cases hzw : charListLt w.Typ.data x.Typ.data with
        | false => rfl
        | true =>
          have hlt := charListLt_trans _ _ _ hzw h
          have := hy w hw2
          rw [this] at hlt
          cases hlt
    · rw [insertDirective, if_neg h]
      refine List.pairwise_cons.mpr ⟨?_, pairwise_insertDirective rest hrest⟩
      intro w hw
      rcases (mem_insertDirective rest).mp hw with rfl | hw2
      · show charListLt w.Typ.data y.Typ.data = false
        exact Bool.not_eq_true _ ▸ (by simpa [strLtB] using h)
      · exact hy w hw2

theorem perm_insertDirective (x : directive) :
    ∀ l : List directive, (insertDirective x l).Perm (x :: l)
  | [] => List.Perm.refl _
  | y :: rest => by
    by_cases h : strLtB x.Typ y.Typ = true
    · rw [insertDirective, if_pos h]
    · rw [insertDirective, if_neg h]
      exact ((perm_insertDirective x rest).cons y).trans (List.Perm.swap x y rest)

theorem sortDirectives_perm : ∀ l : List directive, (sortDirectives l).Perm l
  | [] => List.Perm.refl _
  | x :: rest =>
    (perm_insertDirective x (sortDirectives rest)).trans ((sortDirectives_perm rest).cons x)

theorem sortDirectives_pairwise : ∀ l : List directive, List.Pairwise dirLe (sortDirectives l)
  | [] => List.Pairwise.nil
  | _ :: rest => pairwise_insertDirective (sortDirectives rest) (sortDirectives_pairwise rest)

theorem findDup_none_iff :
    ∀ l : List directive, List.Pairwise dirLe l →
      (findDupDirective l = none ↔ (l.map directive.Typ).Nodup)
  | [], _ => by simp [findDupDirective]
  | [_], _ => by simp [findDupDirective]
  | x :: y :: rest, hp => by
    obtain ⟨hx, hp2⟩ := List.pairwise_cons.mp hp
    obtain ⟨hy, _⟩ := List.pairwise_cons.mp hp2
    by_cases he : x.Typ = y.Typ
    · simp [findDupDirective, he, List.nodup_cons]
    · have hstep : findDupDirective (x :: y :: rest) = findDupDirective (y :: rest) := by
        simp [findDupDirective, he]
      rw [hstep, findDup_none_iff (y :: rest) hp2]
      constructor
      · intro h
        refine List.nodup_cons.mpr ⟨?_, h⟩
        intro hmem
        obtain ⟨z, hz, hzt⟩ := List.mem_map.mp hmem
        rcases List.mem_cons.mp hz with rfl | hz2
        · exact he hzt.symm
        · have h1 : charListLt y.Typ.data x.Typ.data = false := hx y (List.mem_cons_self _ _)
          have h2 : charListLt z.Typ.data y.Typ.data = false := hy z hz2
          rw [hzt] at h2
          exact he (stringDataEq (charListLt_conn _ _ h2 h1))
      · intro h
        exact (List.nodup_cons.mp h).2

theorem reDirectiveParse_head :
    ∀ cs : List Char, (reDirectiveParse cs).isSome → ∃ rest, cs = '@' :: rest := by
  intro cs h
  unfold reDirectiveParse at h
  split at h
  · next rest2 => exact ⟨rest2, rfl⟩
  · simp at h

theorem foldl_declStep_reject : ∀ cs : List Char, cs.foldl declStep .reject = .reject
  | [] => rfl
  | _ :: cs => foldl_declStep_reject cs

theorem reNameMatch_not_directive {s : String} (h : reNameMatch s = true) :
    reDirectiveParse s.data = none := by
  cases hp : reDirectiveParse s.data with
  | none => rfl
  | some v =>
    obtain ⟨rest, hr⟩ := reDirectiveParse_head s.data (by simp [hp])
    unfold reNameMatch at h
    rw [hr] at h
    have h2 := ((Bool.and_eq_true _ _).mp h).2
    rw [List.all_cons] at h2
    have h3 := ((Bool.and_eq_true _ _).mp h2).1
    exact absurd h3 (by decide)

theorem reDeclMatch_not_directive {s : String} (h : reDeclMatch s = true) :
    reDirectiveParse s.data = none := by
  cases hp : reDirectiveParse s.data with
  | none => rfl
  | some v =>
    obtain ⟨rest, hr⟩ := reDirectiveParse_head s.data (by simp [hp])
    unfold reDeclMatch at h
    rw [hr, List.foldl_cons, show declStep .name0 '@' = .reject from by decide,
      foldl_declStep_reject] at h
    simp at h

theorem parseDirective_shape (s : String) (nm : String) (arg : List Char)
    (hsome : reDirectiveParse s.data = some (nm, arg))
    (hnm : nm = "include" ∨ nm = "skip") :
    ∃ dir, parseDirective s = .ok dir ∧ dir.Typ = nm := by
  have hna : ¬ nm = "alias" := by
    rcases hnm with h | h <;> subst h <;> decide
  have hor : (nm = "include" || nm = "skip") = true := by
    rcases hnm with h | h <;> simp [h]
  unfold parseDirective
  rw [hsome]
  simp only [hna, if_false, hor, if_true]
  by_cases hd : (String.mk (trimParens arg)).data.head? = some '$'
  · rw [if_pos hd]
    exact ⟨_, rfl, rfl⟩
  · rw [if_neg hd]
    exact ⟨_, rfl, rfl⟩

theorem parseDirective_unknown (s : String) (nm : String) (arg : List Char)
    (hsome : reDirectiveParse s.data = some (nm, arg))
    (hna : ¬ nm = "alias") (hni : ¬ nm = "include") (hns : ¬ nm = "skip") :
    parseDirective s = .error ("unknown directive in tag \"" ++ nm ++ "\"") := by
  unfold parseDirective
  rw [hsome]
  simp [hna, hni, hns]

theorem parseDirective_alias (s : String) (arg : List Char)
    (hsome : reDirectiveParse s.data = some ("alias", arg)) :
    parseDirective s = .ok ⟨"alias", tokenZero, String.mk (trimParens arg)⟩ := by
  unfold parseDirective
  rw [hsome]
  rfl

theorem parseTagLoop_ok_shape :
    ∀ (items : List String) (tag : String) (d : declaration) (dirs : List directive)
      (keep : Bool) (al : String) (res : declaration × List directive × Bool × String),
      parseTagLoop tag items d dirs keep al = .ok res →
      res.2.2.2 = lastOr (items.filterMap aliasOf) al ∧
        ∃ extra, res.2.1 = dirs ++ extra ∧
          ∀ dd ∈ extra, dd.Typ = "skip" ∨ dd.Typ = "include"
  | [], tag, d, dirs, keep, al, res, h => by
    simp only [parseTagLoop, Except.ok.injEq] at h
    subst h
    exact ⟨rfl, [], by simp, by simp⟩
  | item0 :: rest, tag, d, dirs, keep, al, res, h => by
    by_cases h1 : goTrimSpace item0 = ""
    · simp only [parseTagLoop, h1, eq_self_iff_true, if_true] at h
      have ha : aliasOf item0 = none := by
        unfold aliasOf
        rw [h1]
        rfl
      rw [List.filterMap_cons_none ha]
      exact parseTagLoop_ok_shape rest tag d dirs keep al res h
    · by_cases h2 : (reNameMatch (goTrimSpace item0) && goTrimSpace item0 != "keep") = true
      · simp only [parseTagLoop, h1, h2, eq_self_iff_true, if_true, if_false,
          Bool.false_eq_true] at h
        have ha : aliasOf item0 = none := by
          unfold aliasOf
          rw [reNameMatch_not_directive ((Bool.and_eq_true _ _).mp h2).1]
        rw [List.filterMap_cons_none ha]
        exact parseTagLoop_ok_shape rest tag _ dirs keep al res h
      · by_cases h3 : reDeclMatch (goTrimSpace item0) = true
        · simp only [parseTagLoop, h1, h2, h3, eq_self_iff_true, if_true, if_false,
            Bool.false_eq_true] at h
          have ha : aliasOf item0 = none := by
            unfold aliasOf
            rw [reDeclMatch_not_directive h3]
          rw [List.filterMap_cons_none ha]
          exact parseTagLoop_ok_shape rest tag _ dirs true al res h
        · by_cases h4 : (reDirectiveParse (goTrimSpace item0).data).isSome = true
          · obtain ⟨⟨nm, arg⟩, hsome⟩ := Option.isSome_iff_exists.mp h4
            by_cases hna : nm = "alias"
            · subst hna
              have hpd := parseDirective_alias (goTrimSpace item0) arg hsome
              simp only [parseTagLoop, h1, h2, h3, h4, hpd, eq_self_iff_true, if_true,
                if_false, Bool.false_eq_true] at h
              have ha : aliasOf item0 = some (String.mk (trimParens arg)) := by
                unfold aliasOf
                rw [hsome]
                rfl
              rw [List.filterMap_cons_some ha]
              exact parseTagLoop_ok_shape rest tag d dirs keep _ res h
            · by_cases hnm : nm = "include" ∨ nm = "skip"
              · obtain ⟨dir, hpd, htyp⟩ :=
                  parseDirective_shape (goTrimSpace item0) nm arg hsome hnm
                have hda : ¬ dir.Typ = "alias" := by rw [htyp]; exact hna
                simp only [parseTagLoop, h1, h2, h3, h4, hpd, hda, eq_self_iff_true,
                  if_true, if_false, Bool.false_eq_true] at h
                have ha : aliasOf item0 = none := by
                  unfold aliasOf
                  rw [hsome]
                  simp [hna]
                rw [List.filterMap_cons_none ha]
                obtain ⟨hal, extra, hdirs, hext⟩ :=
                  parseTagLoop_ok_shape rest tag d (dirs ++ [dir]) keep al res h
                refine ⟨hal, dir :: extra, ?_, ?_⟩
                · rw [hdirs, List.append_assoc]
                  rfl
                · intro dd hdd
                  rcases List.mem_cons.mp hdd with rfl | hdd2
                  · rw [htyp]
                    tauto
                  · exact hext dd hdd2
              · push_neg at hnm
                have hpd := parseDirective_unknown (goTrimSpace item0) nm arg hsome
                  hna hnm.1 hnm.2
                simp only [parseTagLoop, h1, h2, h3, h4, hpd, eq_self_iff_true,
                  if_true, if_false, Bool.false_eq_true] at h
                exact Except.noConfusion h
          · by_cases h5 : goTrimSpace item0 = "keep"
            · simp only [parseTagLoop, h1, h2, h3, h4, h5, eq_self_iff_true, if_true,
                if_false, Bool.false_eq_true] at h
              have ha : aliasOf item0 = none := by
                unfold aliasOf
                rw [h5]
                rfl
              rw [List.filterMap_cons_none ha]
              exact parseTagLoop_ok_shape rest tag d dirs true al res h
            · simp only [parseTagLoop, h1, h2, h3, h4, h5, eq_self_iff_true, if_true,
                if_false, Bool.false_eq_true] at h
              exact Except.noConfusion h

/-- C8: when every clause of the tag parses (the clause loop succeeds),
parseTag fails with a duplicate-directive error exactly when the parsed
directives — which are all skip or include clauses, alias never being
appended — contain a repeated type; and on success the declaration's
Alias is the loop's alias value, which is the last `@alias` clause of the
tag (or empty). -/
theorem parseTag_dup_and_alias (tag : String)
    (res : declaration × List directive × Bool × String)
    (hloop : parseTagLoop tag (splitTag tag) emptyDeclaration [] false "" = .ok res) :
    ((∃ t, parseTag tag = .error ("duplicate directive in tag \"" ++ t ++ "\"")) ↔
        ¬ (res.2.1.map directive.Typ).Nodup)
      ∧ (∀ dd ∈ res.2.1, dd.Typ = "skip" ∨ dd.Typ = "include")
      ∧ res.2.2.2 = lastOr ((splitTag tag).filterMap aliasOf) ""
      ∧ (∀ f, parseTag tag = .ok f → f.Decl.Alias = res.2.2.2) := by
  obtain ⟨hal, extra, hdirs, hext⟩ :=
    parseTagLoop_ok_shape (splitTag tag) tag emptyDeclaration [] false "" res hloop
  obtain ⟨d', dirs', keep', al'⟩ := res
  simp only at hal hdirs ⊢
  rw [List.nil_append] at hdirs
  subst hdirs
  have hpt : parseTag tag =
      (match findDupDirective (sortDirectives dirs') with
       | some t => .error ("duplicate directive in tag \"" ++ t ++ "\"")
       | none =>
         .ok (.mk { d' with Alias := al' } (sortDirectives dirs') [] keep')) := by
    unfold parseTag
    rw [hloop]
  have hperm : ((sortDirectives dirs').map directive.Typ).Perm (dirs'.map directive.Typ) :=
    (sortDirectives_perm dirs').map directive.Typ
  cases hfd : findDupDirective (sortDirectives dirs') with
  | some t =>
    have hpt2 : parseTag tag = .error ("duplicate directive in tag \"" ++ t ++ "\"") := by
      rw [hpt, hfd]
    refine ⟨⟨?_, ?_⟩, hext, hal, ?_⟩
    · intro _ hnd
      have hns : ((sortDirectives dirs').map directive.Typ).Nodup :=
        hperm.nodup_iff.mpr hnd
      rw [(findDup_none_iff (sortDirectives dirs') (sortDirectives_pairwise dirs')).mpr hns]
        at hfd
      cases hfd
    · intro _
      exact ⟨t, hpt2⟩
    · intro f hf
      rw [hpt2] at hf
      exact Except.noConfusion hf
  | none =>
    have hnd : (dirs'.map directive.Typ).Nodup :=
      hperm.nodup_iff.mp
        ((findDup_none_iff (sortDirectives dirs') (sortDirectives_pairwise dirs')).mp hfd)
    have hpt2 : parseTag tag =
        .ok (.mk { d' with Alias := al' } (sortDirectives dirs') [] keep') := by
      rw [hpt, hfd]
    refine ⟨⟨?_, ?_⟩, hext, hal, ?_⟩
    · rintro ⟨t, ht⟩
      rw [hpt2] at ht
      exact Except.noConfusion ht
    · intro hc
      exact absurd hnd hc
    · intro f hf
      rw [hpt2] at hf
      injection hf with hf2
      rw [← hf2]
      rfl

/-- Witness for C8 at a concrete tag with two alias clauses and one skip
clause: no duplicate error, and the last alias wins. -/
theorem parseTag_dup_and_alias_witness :
    ((∃ t, parseTag "@alias(x),@alias(y),@skip($s)" =
          .error ("duplicate directive in tag \"" ++ t ++ "\"")) ↔
        ¬ (([(⟨"skip", ⟨"Boolean!", "", "s"⟩, "$s"⟩ : directive)].map directive.Typ).Nodup))
      ∧ (∀ dd ∈ [(⟨"skip", ⟨"Boolean!", "", "s"⟩, "$s"⟩ : directive)],
          dd.Typ = "skip" ∨ dd.Typ = "include")
      ∧ "y" = lastOr ((splitTag "@alias(x),@alias(y),@skip($s)").filterMap aliasOf) ""
      ∧ (∀ f, parseTag "@alias(x),@alias(y),@skip($s)" = .ok f → f.Decl.Alias = "y") :=
  parseTag_dup_and_alias "@alias(x),@alias(y),@skip($s)"
    (⟨"", "", [], ""⟩, [⟨"skip", ⟨"Boolean!", "", "s"⟩, "$s"⟩], false, "y") rfl

end Goql
